import Mathlib

/-! Minishell tokenizer and command builder (`src/parser.c`)

A shallow embedding of `is_special_char`, `read_heredoc`, `tokenize` and
`parse_input`, followed by theorems about them.

Conventions of the embedding.

* A C string is the list of its bytes before the terminating NUL, one `Char`
  per byte; `strlen` is `List.length`.
* A cursor `i` into `input` is the suffix `input.drop i` still to be scanned.
* `isspace` is the C library predicate in the "C" locale.
* Standard input is the list of bytes not yet read, NUL bytes included; a line read from
  it becomes a C string only in the buffer `line`. Standard output and standard error are
  the lists of strings written so far.
* `tokens[0 .. *token_count)` is a `List Token`; `args[0 .. arg_count)` is a list,
  so `arg_count` is its length; `commands[0 .. cmd_count)` is a list.
* `malloc` and `strdup` succeed; a `strdup`ed string is the string itself.
* The final loop of `parse_input`, which stores a null pointer at `args[arg_count]`, leaves
  the list `args` as it is.
* The array `args` has `MAX_TOKENS` slots and the source stores into it unchecked. The list
  `args` of `parseLoop` and `parse_input` agrees with the source as long as every
  `arg_count` stays below `MAX_TOKENS`, which is the case on every tokenized line;
  `parseLoopChecked` and `parse_input_checked` make the bound explicit and have no result
  once a store would leave the array.
-/

namespace Minishell

/-! ## Constants and data model -/

def MAX_CMD_LEN : Nat := 1024
def MAX_TOKENS : Nat := 128
def MAX_TOKEN_LEN : Nat := 256
def MAX_HEREDOC_SIZE : Nat := 4096

inductive TokenType where
  | TOKEN_WORD
  | TOKEN_PIPE
  | TOKEN_REDIRECT_IN
  | TOKEN_HEREDOC
  | TOKEN_REDIRECT_OUT
  | TOKEN_APPEND_OUT
  | TOKEN_BACKGROUND
  | TOKEN_SEMICOLON
  | TOKEN_EOF
  deriving DecidableEq, Repr

open TokenType

/-- The struct `t_token`: a kind and the NUL-terminated text held in `value`. -/
structure Token where
  type : TokenType
  value : List Char
  deriving DecidableEq, Repr

/-! ## Character classes -/

/-- The C library `isspace` in the "C" locale: space, `\t`, `\n`, `\v`, `\f`, `\r`. -/
def isspace (c : Char) : Bool :=
  c == ' ' || c == '\t' || c == '\n' || c == '\x0b' || c == '\x0c' || c == '\r'

def is_special_char (c : Char) : Bool :=
  c == '|' || c == '<' || c == '>' || c == '&' || c == ';'

/-! ## Tokenizer -/

/-- The inner loop `while (i < input_len && isspace(input[i])) i++`. -/
def skipSpaces : List Char → List Char
  | [] => []
  | c :: cs => if isspace c then skipSpaces cs else c :: cs

/-- The quoted-word loop
`while (i < input_len && input[i] != quote && j < MAX_TOKEN_LEN - 1) value[j++] = input[i++]`;
`value` holds the `j` bytes copied so far. Returns the copied bytes and the
remaining input. -/
def scanQuoted (quote : Char) : List Char → List Char → List Char × List Char
  | [], value => (value, [])
  | c :: cs, value =>
    if c ≠ quote ∧ value.length < MAX_TOKEN_LEN - 1 then scanQuoted quote cs (value ++ [c])
    else (value, c :: cs)

/-- The bare-word loop
`while (i < input_len && !isspace(input[i]) && !is_special_char(input[i]) && j < MAX_TOKEN_LEN - 1)`. -/
def scanBare : List Char → List Char → List Char × List Char
  | [], value => (value, [])
  | c :: cs, value =>
    if !isspace c && !is_special_char c && decide (value.length < MAX_TOKEN_LEN - 1) then
      scanBare cs (value ++ [c])
    else (value, c :: cs)

/-- One pass through the body of the outer `while` of `tokenize`, after the
whitespace skip: `none` is the `break` taken when `i >= input_len`; otherwise the
token stored at `tokens[*token_count]` and the input left after it. -/
def nextToken : List Char → Option (Token × List Char)
  | [] => none
  | c :: cs =>
    if is_special_char c then
      if c = '|' then some (⟨TOKEN_PIPE, ['|']⟩, cs)
      else if c = '<' then
        match cs with
        | '<' :: cs2 => some (⟨TOKEN_HEREDOC, ['<', '<']⟩, cs2)
        | _ => some (⟨TOKEN_REDIRECT_IN, ['<']⟩, cs)
      else if c = '>' then
        match cs with
        | '>' :: cs2 => some (⟨TOKEN_APPEND_OUT, ['>', '>']⟩, cs2)
        | _ => some (⟨TOKEN_REDIRECT_OUT, ['>']⟩, cs)
      else if c = '&' then some (⟨TOKEN_BACKGROUND, ['&']⟩, cs)
      -- `else if (input[i] == ';')`: the only operator character left
      else some (⟨TOKEN_SEMICOLON, [';']⟩, cs)
    else if c = '"' ∨ c = '\'' then
      let r := scanQuoted c cs []
      -- `if (i < input_len) i++` skips the closing quote
      some (⟨TOKEN_WORD, r.1⟩, r.2.tail)
    else
      let r := scanBare (c :: cs) []
      some (⟨TOKEN_WORD, r.1⟩, r.2)

/-! The cursor only moves forward; this is what makes the outer loop terminate. -/

theorem skipSpaces_length_le (s : List Char) : (skipSpaces s).length ≤ s.length := by
  induction s with
  | nil => simp [skipSpaces]
  | cons c cs ih =>
    simp only [skipSpaces]
    split
    · simp only [List.length_cons]; omega
    · exact le_rfl

theorem scanQuoted_length_le (q : Char) (s v : List Char) :
    (scanQuoted q s v).2.length ≤ s.length := by
  induction s generalizing v with
  | nil => simp [scanQuoted]
  | cons c cs ih =>
    simp only [scanQuoted]
    split
    · have := ih (v ++ [c]); simp only [List.length_cons]; omega
    · exact le_rfl

theorem scanBare_length_le (s v : List Char) : (scanBare s v).2.length ≤ s.length := by
  induction s generalizing v with
  | nil => simp [scanBare]
  | cons c cs ih =>
    simp only [scanBare]
    split
    · have := ih (v ++ [c]); simp only [List.length_cons]; omega
    · exact le_rfl

theorem skipSpaces_head {r : List Char} {c : Char} {cs : List Char}
    (h : skipSpaces r = c :: cs) : isspace c = false := by
  induction r with
  | nil => simp [skipSpaces] at h
  | cons d ds ih =>
    simp only [skipSpaces] at h
    split at h
    · exact ih h
    · rename_i hd
      cases h; simpa using hd

theorem scanBare_cons_length_lt (c : Char) (cs : List Char)
    (hw : isspace c = false) (hs : is_special_char c = false) :
    (scanBare (c :: cs) []).2.length < (c :: cs).length := by
  have := scanBare_length_le cs [c]
  simp only [scanBare, hw, hs, MAX_TOKEN_LEN, List.length_nil, List.nil_append,
    List.length_cons]
  simp only [Bool.not_false, Bool.and_self, Nat.reduceSub, Nat.zero_lt_succ, decide_True,
    if_true]
  omega

/-- Every pass through the loop body that stores a token advances the cursor. -/
theorem nextToken_length_lt {r : List Char} {tok : Token} {rest : List Char}
    (h : nextToken (skipSpaces r) = some (tok, rest)) : rest.length < r.length := by
  have hle := skipSpaces_length_le r
  cases hs : skipSpaces r with
  | nil => rw [hs] at h; simp [nextToken] at h
  | cons c cs =>
    have hw := skipSpaces_head hs
    rw [hs] at h hle
    simp only [List.length_cons] at hle
    simp only [nextToken] at h
    split at h
    · split at h
      · cases h; omega
      · split at h
        · split at h <;> cases h <;> (try simp only [List.length_cons] at hle) <;> omega
        · split at h
          · split at h <;> cases h <;> (try simp only [List.length_cons] at hle) <;> omega
          · split at h <;> cases h <;> omega
    · split at h
      · cases h
        have := scanQuoted_length_le c cs []
        simp only [List.length_tail]; omega
      · rename_i hsp hq
        cases h
        have hc : is_special_char c = false := by simpa using hsp
        have := scanBare_cons_length_lt c cs hw hc
        simp only [List.length_cons] at this
        omega

/-- The outer loop `while (i < input_len && *token_count < MAX_TOKENS - 1)`:
`rest` is the input from the cursor on, `tokens` the tokens stored so far. -/
def tokenizeLoop (rest : List Char) (tokens : List Token) : List Token :=
  if rest ≠ [] ∧ tokens.length < MAX_TOKENS - 1 then
    match _h : nextToken (skipSpaces rest) with
    | none => tokens
    | some (tok, rest2) => tokenizeLoop rest2 (tokens ++ [tok])
  else tokens
termination_by rest.length
decreasing_by exact nextToken_length_lt _h

/-- The function `tokenize`: the tokens of the scan followed by the end-of-input token
whose text is `"EOF"`. The result list is `tokens[0 .. *token_count)`. -/
def tokenize (input : List Char) : List Token :=
  tokenizeLoop input [] ++ [⟨TOKEN_EOF, ['E', 'O', 'F']⟩]

/-- The operator lexemes and the token kinds the specification assigns to them. -/
def operatorTable : List (List Char × TokenType) :=
  [(['|'], TOKEN_PIPE), (['<'], TOKEN_REDIRECT_IN), (['<', '<'], TOKEN_HEREDOC),
   (['>'], TOKEN_REDIRECT_OUT), (['>', '>'], TOKEN_APPEND_OUT), (['&'], TOKEN_BACKGROUND),
   ([';'], TOKEN_SEMICOLON)]


/-! ## Here-document collector -/

/-- The process's standard streams: the bytes of standard input not yet read, and what has
been written to standard output and standard error, in order. -/
structure Console where
  stdin : List Char
  stdout : List String
  stderr : List String
  deriving DecidableEq, Repr

/-- The copy loop of the C library `fgets`: reads at most `n` more bytes into `line`,
stopping after a newline or at end of file. Returns the bytes stored and the bytes left
on the stream. -/
def fgetsAux : Nat → List Char → List Char → List Char × List Char
  | 0, s, line => (line, s)
  | _ + 1, [], line => (line, [])
  | n + 1, c :: s, line =>
    if c = '\n' then (line ++ [c], s) else fgetsAux n s (line ++ [c])

/-- The C library `fgets (line, size, stdin)`: `none` (a null pointer) at end of file,
otherwise the at most `size - 1` bytes stored and the bytes left on the stream. -/
def fgets (size : Nat) (stdin : List Char) : Option (List Char × List Char) :=
  match stdin with
  | [] => none
  | c :: s => some (fgetsAux (size - 1) (c :: s) [])

/-! Every successful read shortens the stream; this is what makes the loop terminate. -/

theorem fgetsAux_length_le (n : Nat) (s line : List Char) :
    (fgetsAux n s line).2.length ≤ s.length := by
  induction n generalizing s line with
  | zero => simp [fgetsAux]
  | succ n ih =>
    cases s with
    | nil => simp [fgetsAux]
    | cons c s =>
      simp only [fgetsAux]
      split
      · simp
      · have := ih s (line ++ [c]); simp only [List.length_cons]; omega

/-- A successful `fgets` with a buffer of `MAX_CMD_LEN` bytes takes at least one byte off
the stream. -/
theorem fgets_length_lt {stdin raw rest : List Char}
    (h : fgets MAX_CMD_LEN stdin = some (raw, rest)) : rest.length < stdin.length := by
  cases stdin with
  | nil => simp [fgets] at h
  | cons c s =>
    simp only [fgets, MAX_CMD_LEN, Nat.add_one_sub_one, Option.some.injEq] at h
    simp only [fgetsAux] at h
    split at h
    · cases h; simp
    · have := fgetsAux_length_le 1022 s ([] ++ [c])
      rw [h] at this
      simp only [List.length_cons]
      exact Nat.lt_succ_of_le this

/-- The C string held by `line` after `line[strcspn(line, "\n")] = '\0'`: of the bytes
`fgets` stored, those before the first newline or NUL byte. This is all that `strcmp`,
`strlen` and `strcat` see of the line. -/
def lineText (raw : List Char) : List Char :=
  raw.takeWhile (fun c => c ≠ '\n' ∧ c ≠ '\x00')

/-- The loop `while (fgets(line, sizeof(line), stdin))` of `read_heredoc`; `buffer` and
`total_len` are the local variables of that name. Returns the buffer and the streams
when the loop is left. -/
def heredocLoop (delimiter : List Char) (buffer : List Char) (total_len : Nat)
    (con : Console) : List Char × Console :=
  match _h : fgets MAX_CMD_LEN con.stdin with
  | none => (buffer, con)
  | some (raw, stdin2) =>
    -- `line[strcspn(line, "\n")] = '\0'`
    let line := lineText raw
    if line = delimiter then (buffer, { con with stdin := stdin2 })
    else
      let line_len := line.length
      if total_len + line_len + 2 < MAX_HEREDOC_SIZE then
        heredocLoop delimiter (buffer ++ line ++ ['\n']) (total_len + (line_len + 1))
          { con with stdin := stdin2, stdout := con.stdout ++ ["heredoc> "] }
      else
        (buffer, { con with stdin := stdin2, stderr := con.stderr ++
          ["Warning: Here document exceeds maximum size\n"] })
termination_by con.stdin.length
decreasing_by exact fgets_length_lt _h

/-- The function `read_heredoc`: the text collected and the streams afterwards. -/
def read_heredoc (delimiter : List Char) (con : Console) : List Char × Console :=
  heredocLoop delimiter [] 0 { con with stdout := con.stdout ++ ["heredoc> "] }

/-- Standard input holding the given lines, each terminated by a newline. -/
def streamOfLines : List (List Char) → List Char
  | [] => []
  | l :: ls => l ++ '\n' :: streamOfLines ls

/-! ## Command builder -/

/-- The struct `t_command`. A null pointer is `none`; `args[0 .. arg_count)` is `args`, so
`arg_count` is `args.length` (the array has `MAX_TOKENS` slots); the `int` flags
`append_output` and `run_in_background` only ever hold 0 or 1. -/
structure t_command where
  cmd : Option (List Char)
  args : List (List Char)
  input_file : Option (List Char)
  heredoc : Option (List Char)
  output_file : Option (List Char)
  append_output : Bool
  run_in_background : Bool
  deriving DecidableEq, Repr

/-- A zero-initialised `t_command`, as every slot of `t_parsed_input parsed = {0}`. -/
def emptyCommand : t_command :=
  { cmd := none, args := [], input_file := none, heredoc := none, output_file := none,
    append_output := false, run_in_background := false }

def t_command.arg_count (c : t_command) : Nat := c.args.length

/-- The struct `t_parsed_input`: `commands` lists the slots `commands[0 .. cmd_count)`. -/
structure t_parsed_input where
  commands : List t_command
  deriving DecidableEq, Repr

def t_parsed_input.cmd_count (p : t_parsed_input) : Nat := p.commands.length

/-- The state of the loop of `parse_input`. `current_cmd` always points at
`commands[cmd_count - 1]`: `done` lists the slots before it, `cur` is that slot. -/
structure ParseState where
  done : List t_command
  cur : t_command
  con : Console
  deriving DecidableEq, Repr

/-- The `case TOKEN_WORD` body: the first word of a command is also its name. The source
stores the word at `args[arg_count++]` without a bound check; the list grows instead, which
agrees with the source while `arg_count` is below `MAX_TOKENS` before the store. -/
def addWord (c : t_command) (value : List Char) : t_command :=
  match c.cmd with
  | none => { c with cmd := some value, args := c.args ++ [value] }
  | some _ => { c with args := c.args ++ [value] }

/-- Writes one line to standard error. -/
def Console.eprint (con : Console) (msg : String) : Console :=
  { con with stderr := con.stderr ++ [msg] }

/-- The `while (i < token_count && tokens[i].type != TOKEN_EOF)` loop of `parse_input`
over the tokens from the cursor on. In each redirection case the token after the operator
is consumed as well, whether or not it is a Word. -/
def parseLoop : List Token → ParseState → ParseState
  | [], st => st
  | t :: ts, st =>
    match t.type with
    | TOKEN_EOF => st
    | TOKEN_WORD => parseLoop ts { st with cur := addWord st.cur t.value }
    | TOKEN_REDIRECT_IN =>
      match ts with
      | [] => { st with con := st.con.eprint "Error: Expected filename after <\n" }
      | n :: ts2 =>
        if n.type = TOKEN_WORD then
          parseLoop ts2 { st with cur := { st.cur with input_file := some n.value } }
        else parseLoop ts2 { st with con := st.con.eprint "Error: Expected filename after <\n" }
    | TOKEN_HEREDOC =>
      match ts with
      | [] => { st with con := st.con.eprint "Error: Expected delimiter after <<\n" }
      | n :: ts2 =>
        if n.type = TOKEN_WORD then
          let r := read_heredoc n.value st.con
          parseLoop ts2 { st with cur := { st.cur with heredoc := some r.1 }, con := r.2 }
        else parseLoop ts2 { st with con := st.con.eprint "Error: Expected delimiter after <<\n" }
    | TOKEN_REDIRECT_OUT =>
      match ts with
      | [] => { st with con := st.con.eprint "Error: Expected filename after >\n" }
      | n :: ts2 =>
        if n.type = TOKEN_WORD then
          parseLoop ts2
            { st with cur := { st.cur with output_file := some n.value, append_output := false } }
        else parseLoop ts2 { st with con := st.con.eprint "Error: Expected filename after >\n" }
    | TOKEN_APPEND_OUT =>
      match ts with
      | [] => { st with con := st.con.eprint "Error: Expected filename after >>\n" }
      | n :: ts2 =>
        if n.type = TOKEN_WORD then
          parseLoop ts2
            { st with cur := { st.cur with output_file := some n.value, append_output := true } }
        else parseLoop ts2 { st with con := st.con.eprint "Error: Expected filename after >>\n" }
    | TOKEN_BACKGROUND => parseLoop ts { st with cur := { st.cur with run_in_background := true } }
    | TOKEN_PIPE =>
      if st.done.length + 1 < MAX_TOKENS then
        parseLoop ts { st with done := st.done ++ [st.cur], cur := emptyCommand }
      else parseLoop ts { st with con := st.con.eprint "Error: Too many commands in pipeline\n" }
    | TOKEN_SEMICOLON =>
      if st.done.length + 1 < MAX_TOKENS then
        parseLoop ts { st with done := st.done ++ [st.cur], cur := emptyCommand }
      else parseLoop ts { st with con := st.con.eprint "Error: Too many commands\n" }

/-- The function `parse_input`: the parsed line and the standard streams afterwards.
`token_count` is the length of `tokens`. -/
def parse_input (tokens : List Token) (con : Console) : t_parsed_input × Console :=
  let st := parseLoop tokens { done := [], cur := emptyCommand, con := con }
  ({ commands := st.done ++ [st.cur] }, st.con)


/-! ## Stages as the specification describes them -/

def isRedirect (ty : TokenType) : Bool :=
  ty == TOKEN_REDIRECT_IN || ty == TOKEN_HEREDOC || ty == TOKEN_REDIRECT_OUT ||
    ty == TOKEN_APPEND_OUT

def isSeparator (ty : TokenType) : Bool :=
  ty == TOKEN_PIPE || ty == TOKEN_SEMICOLON

def isInput (ty : TokenType) : Bool := ty == TOKEN_REDIRECT_IN

def isOutput (ty : TokenType) : Bool :=
  ty == TOKEN_REDIRECT_OUT || ty == TOKEN_APPEND_OUT

/-- Every redirection operator of the sequence is immediately followed by a Word token. -/
def redirectsHaveWords : List Token → Bool
  | [] => true
  | [t] => !isRedirect t.type
  | t :: n :: ts =>
    (!isRedirect t.type || n.type == TOKEN_WORD) && redirectsHaveWords (n :: ts)

/-- Puts a token in front of the first segment. -/
def consHead (t : Token) : List (List Token) → List (List Token)
  | [] => [[t]]
  | s :: ss => (t :: s) :: ss

/-- The separator-delimited segments of a token sequence: the tokens before the end marker,
split at every Pipe and Sequence token. -/
def segments : List Token → List (List Token)
  | [] => [[]]
  | t :: ts =>
    if t.type = TOKEN_EOF then [[]]
    else if isSeparator t.type then [] :: segments ts
    else consHead t (segments ts)

/-- The texts of the Word tokens that do not immediately follow a redirection operator;
`after` tells whether the token before the list is a redirection operator. -/
def plainWords (after : Bool) : List Token → List (List Char)
  | [] => []
  | t :: ts =>
    (if t.type = TOKEN_WORD ∧ after = false then [t.value] else []) ++
      plainWords (isRedirect t.type) ts

/-- The last operator whose kind satisfies `p`, with the text of the token following it. -/
def lastTarget (p : TokenType → Bool) : List Token → Option (TokenType × List Char)
  | [] => none
  | [_] => none
  | t :: n :: ts =>
    match lastTarget p (n :: ts) with
    | some r => some r
    | none => if p t.type then some (t.type, n.value) else none

/-- What the specification says of one stage. -/
structure Stage where
  program : Option (List Char)
  arguments : List (List Char)
  input_file : Option (List Char)
  has_heredoc : Bool
  output_file : Option (List Char)
  append : Bool
  background : Bool
  deriving DecidableEq, Repr

/-- The stage described by the tokens of one segment, in the specification's words: the
arguments are the Words not following a redirection operator, the program is the first of
them, the input file is the Word after the last `<`, the output file the Word after the
last `>` or `>>` with `append` telling whether that operator is `>>`. -/
def stageOf (seg : List Token) : Stage :=
  { program := (plainWords false seg).head?
    arguments := plainWords false seg
    input_file := (lastTarget isInput seg).map Prod.snd
    has_heredoc := seg.any (fun t => t.type == TOKEN_HEREDOC)
    output_file := (lastTarget isOutput seg).map Prod.snd
    append := match lastTarget isOutput seg with
      | some (ty, _) => ty == TOKEN_APPEND_OUT
      | none => false
    background := seg.any (fun t => t.type == TOKEN_BACKGROUND) }

/-- The fields of a parsed command the specification speaks of. -/
def t_command.stage (c : t_command) : Stage :=
  { program := c.cmd
    arguments := c.args
    input_file := c.input_file
    has_heredoc := c.heredoc.isSome
    output_file := c.output_file
    append := c.append_output
    background := c.run_in_background }

/-- A stage built so far, continued by the tokens of a stage `b`. -/
def Stage.merge (a b : Stage) : Stage :=
  { program := a.program.orElse (fun _ => b.program)
    arguments := a.arguments ++ b.arguments
    input_file := b.input_file.orElse (fun _ => a.input_file)
    has_heredoc := a.has_heredoc || b.has_heredoc
    output_file := b.output_file.orElse (fun _ => a.output_file)
    append := if b.output_file.isSome then b.append else a.append
    background := a.background || b.background }

/-- The stages of the segments `segs`, the first segment continuing the stage `first`. -/
def stagesFrom (first : Stage) : List (List Token) → List Stage
  | [] => [first]
  | s :: ss => first.merge (stageOf s) :: ss.map stageOf

/-- A byte that is neither whitespace, nor an operator character, nor a quote. -/
def bareChar (c : Char) : Bool :=
  !isspace c && !is_special_char c && c != '"' && c != '\''

/-- A bare word: no whitespace, operator or quote character in it. -/
def bareWord (w : List Char) : Bool := w.all bareChar

/-- The input left after a word ends the word: it is empty or starts with whitespace or
an operator character. -/
def stopsWord : List Char → Bool
  | [] => true
  | c :: _ => isspace c || is_special_char c

/-- A line of text on standard input: no newline and no NUL byte inside, and short enough
for one `fgets`. -/
def validLine (l : List Char) : Prop :=
  (∀ c ∈ l, c ≠ '\n' ∧ c ≠ '\x00') ∧ l.length < MAX_CMD_LEN - 1

instance validLine_decidable (l : List Char) : Decidable (validLine l) := by
  unfold validLine; infer_instance

/-! ## Diagnostics -/

/-- The line `parse_input` writes to standard error when the token after the redirection
operator of the given kind is not a Word. -/
def expectedMessage : TokenType → String
  | TOKEN_REDIRECT_IN => "Error: Expected filename after <\n"
  | TOKEN_HEREDOC => "Error: Expected delimiter after <<\n"
  | TOKEN_REDIRECT_OUT => "Error: Expected filename after >\n"
  | TOKEN_APPEND_OUT => "Error: Expected filename after >>\n"
  | _ => ""

/-- The line `parse_input` writes to standard error when the command array is full and the
separator of the given kind is dropped. -/
def tooManyMessage : TokenType → String
  | TOKEN_PIPE => "Error: Too many commands in pipeline\n"
  | _ => "Error: Too many commands\n"

/-- One of the two too-many-commands diagnostics. -/
def isTooMany (msg : String) : Bool :=
  msg == "Error: Too many commands in pipeline\n" || msg == "Error: Too many commands\n"

/-- The number of too-many-commands diagnostics written to standard error so far. -/
def tooManyCount (con : Console) : Nat := con.stderr.countP isTooMany

/-- The diagnostic `read_heredoc` writes when the text would exceed the buffer. -/
def heredocWarning : String := "Warning: Here document exceeds maximum size\n"

/-- The argument slots and command slots in use: the sum of `arg_count` over the commands
plus the number of commands after the first. -/
def slotsUsed (commands : List t_command) : Nat :=
  (commands.map t_command.arg_count).sum + (commands.length - 1)

/-- The segment holds a Word token that is an argument: a Word that is the first token of
the segment or whose preceding token is not a redirection operator. -/
def hasArgumentWord (seg : List Token) : Prop :=
  (∃ t post, seg = t :: post ∧ t.type = TOKEN_WORD) ∨
  (∃ pre p t post, seg = pre ++ p :: t :: post ∧ t.type = TOKEN_WORD ∧
    isRedirect p.type = false)

/-- The lines that precede the first line equal to the delimiter (all lines when there is
no such line). -/
def linesBefore (d : List Char) : List (List Char) → List (List Char)
  | [] => []
  | l :: ls => if l = d then [] else l :: linesBefore d ls

/-- The texts of the tokens, concatenated in order. -/
def concatValues : List Token → List Char
  | [] => []
  | t :: ts => t.value ++ concatValues ts

/-- The input with every whitespace character removed. -/
def withoutSpaces (input : List Char) : List Char :=
  input.filter (fun c => !isspace c)

/-- A Word token that is non-empty and holds no whitespace or operator character; tokens of
the other kinds are not constrained. -/
def cleanWord (t : Token) : Prop :=
  t.type = TOKEN_WORD →
    t.value ≠ [] ∧ ∀ c ∈ t.value, isspace c = false ∧ is_special_char c = false

/-! ## Command builder with the bound of `args` made explicit -/

/-- The loop of `parse_input` with the store `args[arg_count++] = strdup(...)` checked
against the size of the array `char *args[MAX_TOKENS]`: `none` stands for the undefined
behaviour of a store past the end of `args`. The source has no such check; apart from it
this is `parseLoop`. -/
def parseLoopChecked : List Token → ParseState → Option ParseState
  | [], st => some st
  | t :: ts, st =>
    match t.type with
    | TOKEN_EOF => some st
    | TOKEN_WORD =>
      if st.cur.arg_count < MAX_TOKENS then
        parseLoopChecked ts { st with cur := addWord st.cur t.value }
      else none
    | TOKEN_REDIRECT_IN =>
      match ts with
      | [] => some { st with con := st.con.eprint "Error: Expected filename after <\n" }
      | n :: ts2 =>
        if n.type = TOKEN_WORD then
          parseLoopChecked ts2 { st with cur := { st.cur with input_file := some n.value } }
        else
          parseLoopChecked ts2
            { st with con := st.con.eprint "Error: Expected filename after <\n" }
    | TOKEN_HEREDOC =>
      match ts with
      | [] => some { st with con := st.con.eprint "Error: Expected delimiter after <<\n" }
      | n :: ts2 =>
        if n.type = TOKEN_WORD then
          let r := read_heredoc n.value st.con
          parseLoopChecked ts2
            { st with cur := { st.cur with heredoc := some r.1 }, con := r.2 }
        else
          parseLoopChecked ts2
            { st with con := st.con.eprint "Error: Expected delimiter after <<\n" }
    | TOKEN_REDIRECT_OUT =>
      match ts with
      | [] => some { st with con := st.con.eprint "Error: Expected filename after >\n" }
      | n :: ts2 =>
        if n.type = TOKEN_WORD then
          parseLoopChecked ts2
            { st with cur := { st.cur with output_file := some n.value, append_output := false } }
        else
          parseLoopChecked ts2
            { st with con := st.con.eprint "Error: Expected filename after >\n" }
    | TOKEN_APPEND_OUT =>
      match ts with
      | [] => some { st with con := st.con.eprint "Error: Expected filename after >>\n" }
      | n :: ts2 =>
        if n.type = TOKEN_WORD then
          parseLoopChecked ts2
            { st with cur := { st.cur with output_file := some n.value, append_output := true } }
        else
          parseLoopChecked ts2
            { st with con := st.con.eprint "Error: Expected filename after >>\n" }
    | TOKEN_BACKGROUND =>
      parseLoopChecked ts { st with cur := { st.cur with run_in_background := true } }
    | TOKEN_PIPE =>
      if st.done.length + 1 < MAX_TOKENS then
        parseLoopChecked ts { st with done := st.done ++ [st.cur], cur := emptyCommand }
      else
        parseLoopChecked ts
          { st with con := st.con.eprint "Error: Too many commands in pipeline\n" }
    | TOKEN_SEMICOLON =>
      if st.done.length + 1 < MAX_TOKENS then
        parseLoopChecked ts { st with done := st.done ++ [st.cur], cur := emptyCommand }
      else parseLoopChecked ts { st with con := st.con.eprint "Error: Too many commands\n" }

/-- The final loop of `parse_input` stores a null pointer at `args[arg_count]` of every
command; the stores are inside the arrays when every `arg_count` is below `MAX_TOKENS`. -/
def terminatorsInBounds (commands : List t_command) : Bool :=
  commands.all (fun c => decide (c.arg_count < MAX_TOKENS))

/-- The function `parse_input` with every store into an array `args` checked against its
`MAX_TOKENS` slots: the parsed line and the standard streams, or `none` when the source
would write past the end of `args`, where its behaviour is undefined. -/
def parse_input_checked (tokens : List Token) (con : Console) :
    Option (t_parsed_input × Console) :=
  match parseLoopChecked tokens { done := [], cur := emptyCommand, con := con } with
  | none => none
  | some st =>
    if terminatorsInBounds (st.done ++ [st.cur]) then
      some ({ commands := st.done ++ [st.cur] }, st.con)
    else none

/-! # Theorems -/

/-! ## Unfolding the tokenizer loop -/

theorem tokenizeLoop_nil (tokens : List Token) : tokenizeLoop [] tokens = tokens := by
  rw [tokenizeLoop]; simp

theorem tokenizeLoop_full (rest : List Char) (tokens : List Token)
    (h : ¬ tokens.length < MAX_TOKENS - 1) : tokenizeLoop rest tokens = tokens := by
  rw [tokenizeLoop]; simp [h]

theorem tokenizeLoop_break (rest : List Char) (tokens : List Token)
    (h : nextToken (skipSpaces rest) = none) : tokenizeLoop rest tokens = tokens := by
  rw [tokenizeLoop]
  split
  · split
    · rfl
    · rename_i h2; rw [h] at h2; cases h2
  · rfl

theorem tokenizeLoop_step (rest : List Char) (tokens : List Token) (tok : Token)
    (rest2 : List Char) (hr : rest ≠ []) (hc : tokens.length < MAX_TOKENS - 1)
    (h : nextToken (skipSpaces rest) = some (tok, rest2)) :
    tokenizeLoop rest tokens = tokenizeLoop rest2 (tokens ++ [tok]) := by
  rw [tokenizeLoop]
  rw [if_pos ⟨hr, hc⟩]
  split
  · rename_i h2; rw [h] at h2; cases h2
  · rename_i h2; rw [h] at h2; cases h2; rfl

/-! ## Bare words -/

theorem bareChar_iff (c : Char) :
    bareChar c = true ↔
      isspace c = false ∧ is_special_char c = false ∧ c ≠ '"' ∧ c ≠ '\'' := by
  simp [bareChar, and_assoc]

theorem bareWord_cons (c : Char) (cs : List Char) :
    bareWord (c :: cs) = true ↔ bareChar c = true ∧ bareWord cs = true := by
  simp [bareWord]

theorem bareWord_append (u v : List Char) :
    bareWord (u ++ v) = true ↔ bareWord u = true ∧ bareWord v = true := by
  simp [bareWord, List.all_append]

theorem scanBare_append (w rest v : List Char) (hb : bareWord w = true)
    (hlen : v.length + w.length ≤ MAX_TOKEN_LEN - 1) :
    scanBare (w ++ rest) v = scanBare rest (v ++ w) := by
  induction w generalizing v with
  | nil => simp
  | cons c cs ih =>
    obtain ⟨hc, hcs⟩ := (bareWord_cons c cs).1 hb
    obtain ⟨h1, h2, -, -⟩ := (bareChar_iff c).1 hc
    simp only [List.length_cons] at hlen
    have hv : v.length < MAX_TOKEN_LEN - 1 := by omega
    simp only [List.cons_append, scanBare, h1, h2, hv, Bool.not_false, Bool.and_self,
      decide_True, if_true, List.append_eq]
    rw [ih (v ++ [c]) hcs (by simp only [List.length_append, List.length_singleton]; omega)]
    simp

theorem scanBare_cap (s v : List Char) (hv : ¬ v.length < MAX_TOKEN_LEN - 1) :
    scanBare s v = (v, s) := by
  cases s with
  | nil => rfl
  | cons c cs => simp [scanBare, hv]

theorem scanBare_stops (s v : List Char) (hs : stopsWord s = true) :
    scanBare s v = (v, s) := by
  cases s with
  | nil => rfl
  | cons c cs =>
    simp only [stopsWord, Bool.or_eq_true] at hs
    rcases hs with h | h <;> simp [scanBare, h]

theorem skipSpaces_of_not_space (c : Char) (cs : List Char) (h : isspace c = false) :
    skipSpaces (c :: cs) = c :: cs := by
  simp [skipSpaces, h]

/-- Scanning a bare word `w` followed by `rest`: the Word token holds the first
`MAX_TOKEN_LEN - 1` bytes of `w`, and the cursor stands right after them. -/
theorem nextToken_bare (w rest : List Char) (hne : w ≠ []) (hb : bareWord w = true)
    (hstop : MAX_TOKEN_LEN - 1 ≤ w.length ∨ stopsWord rest = true) :
    nextToken (skipSpaces (w ++ rest)) =
      some (⟨TOKEN_WORD, w.take (MAX_TOKEN_LEN - 1)⟩, w.drop (MAX_TOKEN_LEN - 1) ++ rest) := by
  have hscan : scanBare (w ++ rest) [] =
      (w.take (MAX_TOKEN_LEN - 1), w.drop (MAX_TOKEN_LEN - 1) ++ rest) := by
    have hsplit : w ++ rest =
        w.take (MAX_TOKEN_LEN - 1) ++ (w.drop (MAX_TOKEN_LEN - 1) ++ rest) := by
      rw [← List.append_assoc, List.take_append_drop]
    have hbt : bareWord (w.take (MAX_TOKEN_LEN - 1)) = true := by
      have := (bareWord_append (w.take (MAX_TOKEN_LEN - 1)) (w.drop (MAX_TOKEN_LEN - 1))).1
        (by rw [List.take_append_drop]; exact hb)
      exact this.1
    rw [hsplit, scanBare_append _ _ [] hbt (by simp [List.length_take])]
    simp only [List.nil_append]
    by_cases hl : MAX_TOKEN_LEN - 1 ≤ w.length
    · exact scanBare_cap _ _ (by simp [List.length_take]; omega)
    · have hd : w.drop (MAX_TOKEN_LEN - 1) = [] := by
        apply List.drop_eq_nil_of_le; omega
      rw [hd]
      simp only [List.nil_append]
      exact scanBare_stops _ _ (hstop.resolve_left hl)
  cases w with
  | nil => exact absurd rfl hne
  | cons c cs =>
    obtain ⟨hc, -⟩ := (bareWord_cons c cs).1 hb
    obtain ⟨h1, h2, h3, h4⟩ := (bareChar_iff c).1 hc
    rw [List.cons_append, skipSpaces_of_not_space c _ h1]
    rw [List.cons_append] at hscan
    simp only [nextToken, h2, h3, h4, Bool.false_eq_true, if_false, or_self, hscan]

/-- A bare word of at most `MAX_TOKEN_LEN - 1` bytes is one Word token. -/
theorem nextToken_bare_fits (w rest : List Char) (hne : w ≠ []) (hb : bareWord w = true)
    (hlen : w.length ≤ MAX_TOKEN_LEN - 1) (hstop : stopsWord rest = true) :
    nextToken (skipSpaces (w ++ rest)) = some (⟨TOKEN_WORD, w⟩, rest) := by
  rw [nextToken_bare w rest hne hb (Or.inr hstop), List.take_of_length_le hlen,
    List.drop_eq_nil_of_le hlen]
  rfl

/-- An operator lexeme followed by a bare word is one operator token (maximal munch). -/
theorem nextToken_operator (op : List Char) (ty : TokenType) (v : List Char)
    (hop : (op, ty) ∈ operatorTable) (hne : v ≠ []) (hb : bareWord v = true) :
    nextToken (skipSpaces (op ++ v)) = some (⟨ty, op⟩, v) := by
  cases v with
  | nil => exact absurd rfl hne
  | cons c cs =>
    obtain ⟨hc, -⟩ := (bareWord_cons c cs).1 hb
    obtain ⟨-, h2, -, -⟩ := (bareChar_iff c).1 hc
    have hlt : c ≠ '<' := by
      intro h; subst h; simp [is_special_char] at h2
    have hgt : c ≠ '>' := by
      intro h; subst h; simp [is_special_char] at h2
    simp only [operatorTable, List.mem_cons, Prod.mk.injEq, List.mem_singleton,
      List.not_mem_nil, or_false] at hop
    rcases hop with h | h | h | h | h | h | h <;> obtain ⟨rfl, rfl⟩ := h
    · simp [skipSpaces, isspace, nextToken, is_special_char]
    · simp [skipSpaces, isspace, nextToken, is_special_char]
      split
      · rename_i heq; cases heq; exact absurd rfl hlt
      · rfl
    · simp [skipSpaces, isspace, nextToken, is_special_char]
    · simp [skipSpaces, isspace, nextToken, is_special_char]
      split
      · rename_i heq; cases heq; exact absurd rfl hgt
      · rfl
    · simp [skipSpaces, isspace, nextToken, is_special_char]
    · simp [skipSpaces, isspace, nextToken, is_special_char]
    · simp [skipSpaces, isspace, nextToken, is_special_char]

theorem operator_stopsWord (op : List Char) (ty : TokenType) (v : List Char)
    (hop : (op, ty) ∈ operatorTable) : stopsWord (op ++ v) = true := by
  simp only [operatorTable, List.mem_cons, Prod.mk.injEq, List.mem_singleton,
    List.not_mem_nil, or_false] at hop
  rcases hop with h | h | h | h | h | h | h <;> obtain ⟨rfl, rfl⟩ := h <;>
    simp [stopsWord, is_special_char]

/-- A bare word that fits the cap is tokenized to itself. -/
theorem tokenize_bare (w : List Char) (hne : w ≠ []) (hlen : w.length ≤ MAX_TOKEN_LEN - 1)
    (hb : bareWord w = true) :
    tokenize w = [⟨TOKEN_WORD, w⟩, ⟨TOKEN_EOF, ['E', 'O', 'F']⟩] := by
  have h := nextToken_bare_fits w [] hne hb hlen rfl
  rw [List.append_nil] at h
  rw [tokenize, tokenizeLoop_step w [] _ _ hne (by simp [MAX_TOKENS]) h, tokenizeLoop_nil]
  rfl

/-- No token already stored is changed by the rest of the scan. -/
theorem tokenizeLoop_extends (rest : List Char) (tokens : List Token) :
    ∃ l, tokenizeLoop rest tokens = tokens ++ l := by
  induction rest, tokens using tokenizeLoop.induct with
  | case1 rest tokens _ h => exact ⟨[], by rw [tokenizeLoop_break _ _ h]; simp⟩
  | case2 rest tokens hc tok rest2 h ih =>
    obtain ⟨l, hl⟩ := ih
    exact ⟨tok :: l, by rw [tokenizeLoop_step _ _ _ _ hc.1 hc.2 h, hl]; simp⟩
  | case3 rest tokens hc =>
    refine ⟨[], ?_⟩
    rw [tokenizeLoop]; simp [hc]

/-- An over-long bare word: the first Word token holds its first 255 bytes and the second
the bytes that follow, so nothing is dropped at the cap. -/
theorem tokenize_long_bare (w : List Char) (hb : bareWord w = true)
    (hlen : MAX_TOKEN_LEN - 1 < w.length) :
    ∃ rest, tokenize w =
        ⟨TOKEN_WORD, w.take (MAX_TOKEN_LEN - 1)⟩ ::
        ⟨TOKEN_WORD, (w.drop (MAX_TOKEN_LEN - 1)).take (MAX_TOKEN_LEN - 1)⟩ :: rest ∧
      rest ≠ [] ∧
      (w.length ≤ 2 * (MAX_TOKEN_LEN - 1) → rest = [⟨TOKEN_EOF, ['E', 'O', 'F']⟩]) := by
  have hne : w ≠ [] := by
    intro h; rw [h] at hlen; simp at hlen
  have hd : w.drop (MAX_TOKEN_LEN - 1) ≠ [] := by
    intro h
    have := congrArg List.length h
    simp only [List.length_drop, List.length_nil] at this
    omega
  have hbd : bareWord (w.drop (MAX_TOKEN_LEN - 1)) = true := by
    have := (bareWord_append (w.take (MAX_TOKEN_LEN - 1)) (w.drop (MAX_TOKEN_LEN - 1))).1
      (by rw [List.take_append_drop]; exact hb)
    exact this.2
  have h1 := nextToken_bare w [] hne hb (Or.inl (by omega))
  have h2 := nextToken_bare (w.drop (MAX_TOKEN_LEN - 1)) [] hd hbd (Or.inr rfl)
  rw [List.append_nil, List.append_nil] at h1 h2
  have hstep : tokenizeLoop w [] =
      tokenizeLoop ((w.drop (MAX_TOKEN_LEN - 1)).drop (MAX_TOKEN_LEN - 1))
        [⟨TOKEN_WORD, w.take (MAX_TOKEN_LEN - 1)⟩,
         ⟨TOKEN_WORD, (w.drop (MAX_TOKEN_LEN - 1)).take (MAX_TOKEN_LEN - 1)⟩] := by
    rw [tokenizeLoop_step w [] _ _ hne (by simp [MAX_TOKENS]) h1,
      tokenizeLoop_step _ _ _ _ hd (by simp [MAX_TOKENS]) h2]
    rfl
  obtain ⟨l, hl⟩ := tokenizeLoop_extends
    ((w.drop (MAX_TOKEN_LEN - 1)).drop (MAX_TOKEN_LEN - 1))
    [⟨TOKEN_WORD, w.take (MAX_TOKEN_LEN - 1)⟩,
     ⟨TOKEN_WORD, (w.drop (MAX_TOKEN_LEN - 1)).take (MAX_TOKEN_LEN - 1)⟩]
  refine ⟨l ++ [⟨TOKEN_EOF, ['E', 'O', 'F']⟩], ?_, by simp, ?_⟩
  · rw [tokenize, hstep, hl]; simp
  · intro h510
    have hnil : (w.drop (MAX_TOKEN_LEN - 1)).drop (MAX_TOKEN_LEN - 1) = [] := by
      apply List.drop_eq_nil_of_le
      simp only [List.length_drop]; omega
    rw [hnil, tokenizeLoop_nil] at hl
    have : l = [] := by simpa using hl
    rw [this]; rfl

/-! ## Caps on the token sequence -/

theorem scanQuoted_value_length (q : Char) (s v : List Char)
    (hv : v.length ≤ MAX_TOKEN_LEN - 1) :
    (scanQuoted q s v).1.length ≤ MAX_TOKEN_LEN - 1 := by
  induction s generalizing v with
  | nil => simpa [scanQuoted] using hv
  | cons c cs ih =>
    simp only [scanQuoted]
    split
    · rename_i h
      exact ih (v ++ [c]) (by simp only [List.length_append, List.length_singleton]; omega)
    · exact hv

theorem scanBare_value_length (s v : List Char) (hv : v.length ≤ MAX_TOKEN_LEN - 1) :
    (scanBare s v).1.length ≤ MAX_TOKEN_LEN - 1 := by
  induction s generalizing v with
  | nil => simpa [scanBare] using hv
  | cons c cs ih =>
    simp only [scanBare]
    split
    · rename_i h
      simp only [Bool.and_eq_true, decide_eq_true_eq] at h
      exact ih (v ++ [c]) (by simp only [List.length_append, List.length_singleton]; omega)
    · exact hv

/-- A token stored by the loop body is never the end marker and respects the text cap. -/
theorem nextToken_token (s : List Char) (tok : Token) (rest : List Char)
    (h : nextToken s = some (tok, rest)) :
    tok.type ≠ TOKEN_EOF ∧ tok.value.length ≤ MAX_TOKEN_LEN - 1 := by
  cases s with
  | nil => simp [nextToken] at h
  | cons c cs =>
    simp only [nextToken] at h
    split at h
    · split at h
      · cases h; simp [MAX_TOKEN_LEN]
      · split at h
        · split at h <;> cases h <;> simp [MAX_TOKEN_LEN]
        · split at h
          · split at h <;> cases h <;> simp [MAX_TOKEN_LEN]
          · split at h <;> cases h <;> simp [MAX_TOKEN_LEN]
    · split at h
      · cases h
        exact ⟨by simp, scanQuoted_value_length c cs [] (by simp)⟩
      · cases h
        exact ⟨by simp, scanBare_value_length (c :: cs) [] (by simp)⟩

/-- Loop invariant of `tokenize`: at most `MAX_TOKENS - 1` tokens are stored, none of them
the end marker, each within the text cap. -/
theorem tokenizeLoop_inv (rest : List Char) (tokens : List Token)
    (hlen : tokens.length ≤ MAX_TOKENS - 1)
    (hall : ∀ t ∈ tokens, t.type ≠ TOKEN_EOF ∧ t.value.length ≤ MAX_TOKEN_LEN - 1) :
    (tokenizeLoop rest tokens).length ≤ MAX_TOKENS - 1 ∧
      ∀ t ∈ tokenizeLoop rest tokens,
        t.type ≠ TOKEN_EOF ∧ t.value.length ≤ MAX_TOKEN_LEN - 1 := by
  induction rest, tokens using tokenizeLoop.induct with
  | case1 rest tokens _ h => rw [tokenizeLoop_break _ _ h]; exact ⟨hlen, hall⟩
  | case2 rest tokens hc tok rest2 h ih =>
    rw [tokenizeLoop_step _ _ _ _ hc.1 hc.2 h]
    apply ih
    · simp only [List.length_append, List.length_singleton]; omega
    · intro t ht
      rcases List.mem_append.1 ht with ht | ht
      · exact hall t ht
      · rw [List.mem_singleton.1 ht]; exact nextToken_token _ _ _ h
  | case3 rest tokens hc =>
    have : tokenizeLoop rest tokens = tokens := by rw [tokenizeLoop]; simp [hc]
    rw [this]; exact ⟨hlen, hall⟩

theorem tokenizeLoop_length_le (input : List Char) :
    (tokenizeLoop input []).length ≤ MAX_TOKENS - 1 :=
  (tokenizeLoop_inv input [] (by simp) (by simp)).1

theorem tokenizeLoop_mem (input : List Char) (t : Token) (h : t ∈ tokenizeLoop input []) :
    t.type ≠ TOKEN_EOF ∧ t.value.length ≤ MAX_TOKEN_LEN - 1 :=
  (tokenizeLoop_inv input [] (by simp) (by simp)).2 t h

theorem skipSpaces_all_space (s : List Char) (h : s.all isspace = true) :
    skipSpaces s = [] := by
  induction s with
  | nil => rfl
  | cons c cs ih =>
    simp only [List.all_cons, Bool.and_eq_true] at h
    simp [skipSpaces, h.1, ih h.2]

/-- A line of whitespace only yields just the end marker. -/
theorem tokenize_blank (s : List Char) (h : s.all isspace = true) :
    tokenize s = [⟨TOKEN_EOF, ['E', 'O', 'F']⟩] := by
  have : tokenizeLoop s [] = [] :=
    tokenizeLoop_break s [] (by rw [skipSpaces_all_space s h]; rfl)
  rw [tokenize, this]; rfl

/-! ## Here-documents read from a stream of lines -/

theorem fgetsAux_line (n : Nat) (l rest line : List Char) (hnl : ∀ c ∈ l, c ≠ '\n')
    (hlen : l.length < n) :
    fgetsAux n (l ++ '\n' :: rest) line = (line ++ l ++ ['\n'], rest) := by
  induction l generalizing n line with
  | nil =>
    cases n with
    | zero => simp at hlen
    | succ n => simp [fgetsAux]
  | cons c cs ih =>
    cases n with
    | zero => simp at hlen
    | succ n =>
      have hc : c ≠ '\n' := hnl c (by simp)
      simp only [List.cons_append, fgetsAux, hc, if_false, List.append_eq]
      rw [ih n (line ++ [c]) (fun d hd => hnl d (by simp [hd]))
        (by simp only [List.length_cons] at hlen; omega)]
      simp

theorem fgets_line (l rest : List Char) (hl : validLine l) :
    fgets MAX_CMD_LEN (l ++ '\n' :: rest) = some (l ++ ['\n'], rest) := by
  have h := fgetsAux_line (MAX_CMD_LEN - 1) l rest [] (fun c hc => (hl.1 c hc).1) hl.2
  cases l with
  | nil => simpa [fgets] using h
  | cons c cs => simpa [fgets] using h

theorem lineText_line (l : List Char) (hnl : ∀ c ∈ l, c ≠ '\n' ∧ c ≠ '\x00') :
    lineText (l ++ ['\n']) = l := by
  induction l with
  | nil => simp [lineText, List.takeWhile]
  | cons c cs ih =>
    have hc := hnl c (by simp)
    have ih2 := ih (fun d hd => hnl d (by simp [hd]))
    simp only [lineText] at ih2 ⊢
    simp only [List.cons_append, List.takeWhile_cons, hc, ne_eq, not_false_eq_true,
      and_self, decide_True, if_true]
    rw [ih2]

/-- One pass of the loop of `read_heredoc` on a line that is the delimiter. -/
theorem heredocLoop_delimiter (d buffer : List Char) (total : Nat) (con : Console)
    (rest : List Char) (hd : validLine d) (hin : con.stdin = d ++ '\n' :: rest) :
    heredocLoop d buffer total con = (buffer, { con with stdin := rest }) := by
  rw [heredocLoop]
  split
  · rename_i h; rw [hin, fgets_line d rest hd] at h; cases h
  · rename_i raw stdin2 h
    rw [hin, fgets_line d rest hd] at h
    cases h
    simp only [lineText_line d hd.1, if_true]

/-- One pass of the loop of `read_heredoc` on a line that is not the delimiter and fits. -/
theorem heredocLoop_line (d l buffer : List Char) (total : Nat) (con : Console)
    (rest : List Char) (hl : validLine l) (hne : l ≠ d)
    (hfit : total + l.length + 2 < MAX_HEREDOC_SIZE) (hin : con.stdin = l ++ '\n' :: rest) :
    heredocLoop d buffer total con =
      heredocLoop d (buffer ++ l ++ ['\n']) (total + (l.length + 1))
        { con with stdin := rest, stdout := con.stdout ++ ["heredoc> "] } := by
  rw [heredocLoop]
  split
  · rename_i h; rw [hin, fgets_line l rest hl] at h; cases h
  · rename_i raw stdin2 h
    rw [hin, fgets_line l rest hl] at h
    cases h
    simp only [lineText_line l hl.1, hne, hfit, if_true, if_false]

/-- The loop of `read_heredoc` over the lines before the delimiter line. -/
theorem heredocLoop_lines (d : List Char) (pre : List (List Char)) (post buffer : List Char)
    (total : Nat) (con : Console) (hd : validLine d)
    (hpre : ∀ l ∈ pre, validLine l ∧ l ≠ d)
    (hfit : total + (streamOfLines pre).length < MAX_HEREDOC_SIZE - 1)
    (hin : con.stdin = streamOfLines pre ++ (d ++ '\n' :: post)) :
    heredocLoop d buffer total con =
      (buffer ++ streamOfLines pre,
        { con with stdin := post,
                   stdout := con.stdout ++ List.replicate pre.length "heredoc> " }) := by
  induction pre generalizing buffer total con with
  | nil =>
    rw [heredocLoop_delimiter d buffer total con post hd (by simpa [streamOfLines] using hin)]
    simp [streamOfLines]
  | cons l ls ih =>
    obtain ⟨hl, hne⟩ := hpre l (by simp)
    simp only [streamOfLines, List.length_append, List.length_cons, MAX_HEREDOC_SIZE] at hfit
    rw [heredocLoop_line d l buffer total con (streamOfLines ls ++ (d ++ '\n' :: post)) hl hne
      (by simp only [MAX_HEREDOC_SIZE]; omega) (by simpa [streamOfLines] using hin)]
    rw [ih _ _ _ (fun m hm => hpre m (by simp [hm]))
      (by simp only [MAX_HEREDOC_SIZE]; omega) rfl]
    simp [streamOfLines, List.replicate_succ]

/-- The function `read_heredoc` on a stream of lines holding the delimiter line. -/
theorem read_heredoc_lines (d : List Char) (pre : List (List Char)) (post : List Char)
    (con : Console) (hd : validLine d) (hpre : ∀ l ∈ pre, validLine l ∧ l ≠ d)
    (hfit : (streamOfLines pre).length < MAX_HEREDOC_SIZE - 1)
    (hin : con.stdin = streamOfLines pre ++ (d ++ '\n' :: post)) :
    read_heredoc d con =
      (streamOfLines pre,
        { con with stdin := post,
                   stdout := con.stdout ++ List.replicate (pre.length + 1) "heredoc> " }) := by
  rw [read_heredoc, heredocLoop_lines d pre post [] 0
    { con with stdout := con.stdout ++ ["heredoc> "] } hd hpre (by simpa using hfit) hin]
  simp [List.replicate_succ]

/-! ## Claims about the tokenizer -/

/-- C2: for non-empty bare words `u` and `v` of at most 255 bytes and every operator lexeme
`op` of the table, `tokenize (u ++ op ++ v)` is exactly `[Word u, T op, Word v, EndOfInput]`,
the operator token carrying its lexeme as text. -/
theorem tokenize_word_operator_word (u v op : List Char) (ty : TokenType)
    (hu : u ≠ []) (hv : v ≠ []) (hub : bareWord u = true) (hvb : bareWord v = true)
    (hul : u.length ≤ MAX_TOKEN_LEN - 1) (hvl : v.length ≤ MAX_TOKEN_LEN - 1)
    (hop : (op, ty) ∈ operatorTable) :
    tokenize (u ++ op ++ v) =
      [⟨TOKEN_WORD, u⟩, ⟨ty, op⟩, ⟨TOKEN_WORD, v⟩, ⟨TOKEN_EOF, ['E', 'O', 'F']⟩] := by
  have h1 := nextToken_bare_fits u (op ++ v) hu hub hul (operator_stopsWord op ty v hop)
  have h2 := nextToken_operator op ty v hop hv hvb
  have h3 := nextToken_bare_fits v [] hv hvb hvl rfl
  rw [List.append_nil] at h3
  have hov : op ++ v ≠ [] := by simp [hv]
  have huov : u ++ (op ++ v) ≠ [] := by simp [hu]
  rw [tokenize, List.append_assoc,
    tokenizeLoop_step _ [] _ _ huov (by simp [MAX_TOKENS]) h1,
    tokenizeLoop_step _ _ _ _ hov (by simp [MAX_TOKENS]) h2,
    tokenizeLoop_step _ _ _ _ hv (by simp [MAX_TOKENS]) h3, tokenizeLoop_nil]
  rfl

/-- Witness for C2 at `"a<<b"`: one Heredoc token, never two RedirectIn tokens. -/
theorem tokenize_word_operator_word_witness :
    tokenize (['a'] ++ ['<', '<'] ++ ['b']) =
      [⟨TOKEN_WORD, ['a']⟩, ⟨TOKEN_HEREDOC, ['<', '<']⟩, ⟨TOKEN_WORD, ['b']⟩,
       ⟨TOKEN_EOF, ['E', 'O', 'F']⟩] :=
  tokenize_word_operator_word ['a'] ['b'] ['<', '<'] TOKEN_HEREDOC (by decide) (by decide)
    (by decide) (by decide) (by decide) (by decide) (by decide)

/-- C5: round trip. A non-empty bare word of at most 255 bytes is tokenized to exactly
`[Word w, EndOfInput]`, the Word's text being `w` unchanged. -/
theorem tokenize_roundtrip (w : List Char) (hne : w ≠ [])
    (hlen : w.length ≤ MAX_TOKEN_LEN - 1) (hb : bareWord w = true) :
    tokenize w = [⟨TOKEN_WORD, w⟩, ⟨TOKEN_EOF, ['E', 'O', 'F']⟩] :=
  tokenize_bare w hne hlen hb

/-- Witness for C5 at the word `ls`. -/
theorem tokenize_roundtrip_witness :
    tokenize ['l', 's'] = [⟨TOKEN_WORD, ['l', 's']⟩, ⟨TOKEN_EOF, ['E', 'O', 'F']⟩] :=
  tokenize_roundtrip ['l', 's'] (by decide) (by decide) (by decide)

/-- C9, as the code behaves: for a bare word longer than 255 bytes the first token is the
Word of its first 255 bytes, and the bytes beyond the cap are not dropped: the next token
is a Word holding the following bytes (up to 255 of them), and for a word of at most 510
bytes the result is exactly these two Words and the end marker. -/
theorem tokenize_long_word_splits (w : List Char) (hb : bareWord w = true)
    (hlen : MAX_TOKEN_LEN - 1 < w.length) :
    ∃ rest, tokenize w =
        ⟨TOKEN_WORD, w.take (MAX_TOKEN_LEN - 1)⟩ ::
        ⟨TOKEN_WORD, (w.drop (MAX_TOKEN_LEN - 1)).take (MAX_TOKEN_LEN - 1)⟩ :: rest ∧
      rest ≠ [] ∧
      (w.length ≤ 2 * (MAX_TOKEN_LEN - 1) → rest = [⟨TOKEN_EOF, ['E', 'O', 'F']⟩]) :=
  tokenize_long_bare w hb hlen

theorem bareWord_replicate_a (n : Nat) : bareWord (List.replicate n 'a') = true := by
  simp only [bareWord, List.all_eq_true]
  intro c hc
  rw [List.eq_of_mem_replicate hc]
  decide

/-- Witness for the amended C9 at a word of 256 bytes. -/
theorem tokenize_long_word_splits_witness :
    ∃ rest, tokenize (List.replicate 256 'a') =
        ⟨TOKEN_WORD, (List.replicate 256 'a').take (MAX_TOKEN_LEN - 1)⟩ ::
        ⟨TOKEN_WORD, ((List.replicate 256 'a').drop (MAX_TOKEN_LEN - 1)).take
          (MAX_TOKEN_LEN - 1)⟩ :: rest ∧
      rest ≠ [] ∧
      ((List.replicate 256 'a').length ≤ 2 * (MAX_TOKEN_LEN - 1) →
        rest = [⟨TOKEN_EOF, ['E', 'O', 'F']⟩]) :=
  tokenize_long_word_splits (List.replicate 256 'a') (bareWord_replicate_a 256)
    (by rw [List.length_replicate]; decide)

/-- Counterexample to C9 as stated: the bare word of 256 letters `a` is not tokenized to
`[Word (first 255 bytes), EndOfInput]`; the 256th byte comes back as a second Word. -/
theorem tokenize_truncation_counterexample :
    bareWord (List.replicate 256 'a') = true ∧
    tokenize (List.replicate 256 'a') ≠
      [⟨TOKEN_WORD, (List.replicate 256 'a').take 255⟩, ⟨TOKEN_EOF, ['E', 'O', 'F']⟩] ∧
    tokenize (List.replicate 256 'a') =
      [⟨TOKEN_WORD, List.replicate 255 'a'⟩, ⟨TOKEN_WORD, ['a']⟩,
       ⟨TOKEN_EOF, ['E', 'O', 'F']⟩] := by
  obtain ⟨rest, h1, -, h3⟩ := tokenize_long_bare (List.replicate 256 'a')
    (bareWord_replicate_a 256) (by rw [List.length_replicate]; decide)
  have hr := h3 (by rw [List.length_replicate]; decide)
  subst hr
  have ht : (List.replicate 256 'a').take (MAX_TOKEN_LEN - 1) = List.replicate 255 'a' := by
    rw [List.take_replicate]; rfl
  have hd : ((List.replicate 256 'a').drop (MAX_TOKEN_LEN - 1)).take (MAX_TOKEN_LEN - 1)
      = ['a'] := by
    rw [List.drop_replicate, List.take_replicate]; rfl
  rw [ht, hd] at h1
  refine ⟨bareWord_replicate_a 256, ?_, h1⟩
  rw [h1]
  intro h
  have hl := congrArg List.length h
  simp only [List.length_cons, List.length_nil] at hl
  omega

/-- C10: for every input the token sequence has between 1 and `MAX_TOKENS` tokens, its last
token is the end marker with text `"EOF"`, no earlier token is an end marker, and every
token's text has at most `MAX_TOKEN_LEN - 1` bytes. -/
theorem tokenize_well_formed (input : List Char) :
    1 ≤ (tokenize input).length ∧ (tokenize input).length ≤ MAX_TOKENS ∧
    (tokenize input).getLast? = some ⟨TOKEN_EOF, ['E', 'O', 'F']⟩ ∧
    (∀ t ∈ (tokenize input).dropLast, t.type ≠ TOKEN_EOF) ∧
    (∀ t ∈ tokenize input, t.value.length ≤ MAX_TOKEN_LEN - 1) := by
  have hlen := tokenizeLoop_length_le input
  have hmem := tokenizeLoop_mem input
  refine ⟨?_, ?_, ?_, ?_, ?_⟩
  · simp [tokenize]
  · simp only [tokenize, List.length_append, List.length_singleton]
    simp only [MAX_TOKENS] at hlen ⊢
    omega
  · simp [tokenize]
  · intro t ht
    simp only [tokenize, List.dropLast_concat] at ht
    exact (hmem t ht).1
  · intro t ht
    simp only [tokenize, List.mem_append, List.mem_singleton] at ht
    rcases ht with ht | ht
    · exact (hmem t ht).2
    · rw [ht]; simp [MAX_TOKEN_LEN]

/-! ## Claims about the here-document collector -/

theorem streamOfLines_append (a b : List (List Char)) :
    streamOfLines (a ++ b) = streamOfLines a ++ streamOfLines b := by
  induction a with
  | nil => rfl
  | cons l ls ih => simp [streamOfLines, ih]

theorem split_at_index {α : Type} (L : List α) (k : Nat) (d : α) (h : L[k]? = some d) :
    L = L.take k ++ d :: L.drop (k + 1) := by
  induction L generalizing k with
  | nil => simp at h
  | cons x xs ih =>
    cases k with
    | zero => simp at h; simp [h]
    | succ k =>
      simp only [List.getElem?_cons_succ] at h
      simp only [List.take_succ_cons, List.drop_succ_cons, List.cons_append]
      rw [← ih k h]

/-- C7, as the code behaves: standard input holds the lines `L` (each without a newline or
NUL byte inside and shorter than `MAX_CMD_LEN - 1` bytes, each followed by a newline); the
delimiter `d` first occurs at
index `k`, and the lines before it total, with their newlines, fewer than
`MAX_HEREDOC_SIZE - 1` bytes. Then `read_heredoc d` returns the lines before index `k`, each
followed by a newline, consumes exactly the first `k + 1` lines, leaves the later lines
unread and writes no diagnostic. -/
theorem read_heredoc_until_delimiter (d : List Char) (L : List (List Char)) (k : Nat)
    (con : Console) (hvalid : ∀ l ∈ L, validLine l) (hk : L[k]? = some d)
    (hfirst : ∀ l ∈ L.take k, l ≠ d)
    (hfit : (streamOfLines (L.take k)).length < MAX_HEREDOC_SIZE - 1)
    (hin : con.stdin = streamOfLines L) :
    (read_heredoc d con).1 = streamOfLines (L.take k) ∧
    (read_heredoc d con).2.stdin = streamOfLines (L.drop (k + 1)) ∧
    (read_heredoc d con).2.stderr = con.stderr := by
  have hsplit := split_at_index L k d hk
  have hd : validLine d := hvalid d (by rw [hsplit]; simp)
  have hpre : ∀ l ∈ L.take k, validLine l ∧ l ≠ d :=
    fun l hl => ⟨hvalid l (List.mem_of_mem_take hl), hfirst l hl⟩
  have hin2 : con.stdin =
      streamOfLines (L.take k) ++ (d ++ '\n' :: streamOfLines (L.drop (k + 1))) := by
    rw [hin]
    conv_lhs => rw [hsplit]
    rw [streamOfLines_append]
    rfl
  rw [read_heredoc_lines d (L.take k) (streamOfLines (L.drop (k + 1))) con hd hpre hfit hin2]
  exact ⟨rfl, rfl, rfl⟩

/-- Witness for the amended C7: delimiter `EOF` and the lines `one`, `two`, `EOF`, `ignored`. -/
theorem read_heredoc_until_delimiter_witness :
    (read_heredoc ['E', 'O', 'F']
      ⟨streamOfLines [['o', 'n', 'e'], ['t', 'w', 'o'], ['E', 'O', 'F'],
        ['i', 'g', 'n', 'o', 'r', 'e', 'd']], [], []⟩).1 =
      ['o', 'n', 'e', '\n', 't', 'w', 'o', '\n'] ∧
    (read_heredoc ['E', 'O', 'F']
      ⟨streamOfLines [['o', 'n', 'e'], ['t', 'w', 'o'], ['E', 'O', 'F'],
        ['i', 'g', 'n', 'o', 'r', 'e', 'd']], [], []⟩).2.stdin =
      ['i', 'g', 'n', 'o', 'r', 'e', 'd', '\n'] ∧
    (read_heredoc ['E', 'O', 'F']
      ⟨streamOfLines [['o', 'n', 'e'], ['t', 'w', 'o'], ['E', 'O', 'F'],
        ['i', 'g', 'n', 'o', 'r', 'e', 'd']], [], []⟩).2.stderr = [] :=
  read_heredoc_until_delimiter ['E', 'O', 'F']
    [['o', 'n', 'e'], ['t', 'w', 'o'], ['E', 'O', 'F'], ['i', 'g', 'n', 'o', 'r', 'e', 'd']] 2
    ⟨streamOfLines [['o', 'n', 'e'], ['t', 'w', 'o'], ['E', 'O', 'F'],
      ['i', 'g', 'n', 'o', 'r', 'e', 'd']], [], []⟩
    (by decide) (by decide) (by decide) (by decide) rfl

/-! ## Unfolding the command builder loop -/

theorem parseLoop_eof (t : Token) (ts : List Token) (st : ParseState)
    (h : t.type = TOKEN_EOF) : parseLoop (t :: ts) st = st := by
  cases ts <;> simp only [parseLoop, h]

theorem parseLoop_word (t : Token) (ts : List Token) (st : ParseState)
    (h : t.type = TOKEN_WORD) :
    parseLoop (t :: ts) st = parseLoop ts { st with cur := addWord st.cur t.value } := by
  cases ts <;> simp only [parseLoop, h]

theorem parseLoop_background (t : Token) (ts : List Token) (st : ParseState)
    (h : t.type = TOKEN_BACKGROUND) :
    parseLoop (t :: ts) st =
      parseLoop ts { st with cur := { st.cur with run_in_background := true } } := by
  cases ts <;> simp only [parseLoop, h]

theorem parseLoop_separator (t : Token) (ts : List Token) (st : ParseState)
    (h : isSeparator t.type = true) (hc : st.done.length + 1 < MAX_TOKENS) :
    parseLoop (t :: ts) st =
      parseLoop ts { st with done := st.done ++ [st.cur], cur := emptyCommand } := by
  cases ht : t.type <;> simp [isSeparator, ht] at h <;>
    cases ts <;> simp only [parseLoop, ht, hc, if_true]

theorem parseLoop_redirect_in (t n : Token) (ts : List Token) (st : ParseState)
    (h : t.type = TOKEN_REDIRECT_IN) (hn : n.type = TOKEN_WORD) :
    parseLoop (t :: n :: ts) st =
      parseLoop ts { st with cur := { st.cur with input_file := some n.value } } := by
  simp only [parseLoop, h, hn, if_true]

theorem parseLoop_heredoc (t n : Token) (ts : List Token) (st : ParseState)
    (h : t.type = TOKEN_HEREDOC) (hn : n.type = TOKEN_WORD) :
    parseLoop (t :: n :: ts) st =
      parseLoop ts { st with cur := { st.cur with heredoc := some (read_heredoc n.value st.con).1 },
                             con := (read_heredoc n.value st.con).2 } := by
  simp only [parseLoop, h, hn, if_true]

theorem parseLoop_redirect_out (t n : Token) (ts : List Token) (st : ParseState)
    (h : t.type = TOKEN_REDIRECT_OUT) (hn : n.type = TOKEN_WORD) :
    parseLoop (t :: n :: ts) st =
      parseLoop ts { st with cur := { st.cur with output_file := some n.value,
                                                  append_output := false } } := by
  simp only [parseLoop, h, hn, if_true]

theorem parseLoop_append_out (t n : Token) (ts : List Token) (st : ParseState)
    (h : t.type = TOKEN_APPEND_OUT) (hn : n.type = TOKEN_WORD) :
    parseLoop (t :: n :: ts) st =
      parseLoop ts { st with cur := { st.cur with output_file := some n.value,
                                                  append_output := true } } := by
  simp only [parseLoop, h, hn, if_true]

/-! ## The specification's stage functions, token by token -/

theorem lastTarget_cons_of_not (p : TokenType → Bool) (t : Token) (s : List Token)
    (h : p t.type = false) : lastTarget p (t :: s) = lastTarget p s := by
  cases s with
  | nil => rfl
  | cons n ts =>
    simp only [lastTarget, h]
    cases lastTarget p (n :: ts) <;> simp

theorem lastTarget_cons_cons (p : TokenType → Bool) (t n : Token) (s : List Token)
    (hn : p n.type = false) :
    lastTarget p (t :: n :: s) =
      (lastTarget p s).orElse (fun _ => if p t.type then some (t.type, n.value) else none) := by
  simp only [lastTarget]
  rw [lastTarget_cons_of_not p n s hn]
  cases lastTarget p s <;> simp

theorem isRedirect_word : isRedirect TOKEN_WORD = false := rfl

theorem plainWords_word (t : Token) (s : List Token) (h : t.type = TOKEN_WORD) :
    plainWords false (t :: s) = t.value :: plainWords false s := by
  simp [plainWords, h, isRedirect_word]

theorem plainWords_redirect (t n : Token) (s : List Token) (h : isRedirect t.type = true)
    (hn : n.type = TOKEN_WORD) :
    plainWords false (t :: n :: s) = plainWords false s := by
  have ht : t.type ≠ TOKEN_WORD := by
    intro h2; rw [h2] at h; simp [isRedirect_word] at h
  simp [plainWords, h, hn, ht, isRedirect_word]

theorem plainWords_other (t : Token) (s : List Token) (h : isRedirect t.type = false)
    (hw : t.type ≠ TOKEN_WORD) :
    plainWords false (t :: s) = plainWords false s := by
  simp [plainWords, h, hw]

theorem stageOf_nil : stageOf [] =
    { program := none, arguments := [], input_file := none, has_heredoc := false,
      output_file := none, append := false, background := false } := rfl

theorem merge_stageOf_nil (a : Stage) : a.merge (stageOf []) = a := by
  cases a; simp [Stage.merge, stageOf_nil]

theorem emptyCommand_stage_merge (seg : List Token) :
    emptyCommand.stage.merge (stageOf seg) = stageOf seg := by
  simp only [Stage.merge, t_command.stage, emptyCommand, stageOf]
  cases lastTarget isOutput seg <;> simp

theorem tokenType_beq (a b : TokenType) : (a == b) = decide (a = b) := rfl

theorem merge_word (c : t_command) (t : Token) (s : List Token) (h : t.type = TOKEN_WORD) :
    (addWord c t.value).stage.merge (stageOf s) = c.stage.merge (stageOf (t :: s)) := by
  have hi : isInput t.type = false := by rw [h]; rfl
  have ho : isOutput t.type = false := by rw [h]; rfl
  simp only [Stage.merge, t_command.stage, stageOf, plainWords_word t s h,
    lastTarget_cons_of_not _ t s hi, lastTarget_cons_of_not _ t s ho, List.any_cons, h]
  cases hc : c.cmd <;> simp [addWord, hc, tokenType_beq]

theorem merge_background (c : t_command) (t : Token) (s : List Token)
    (h : t.type = TOKEN_BACKGROUND) :
    ({ c with run_in_background := true } : t_command).stage.merge (stageOf s) =
      c.stage.merge (stageOf (t :: s)) := by
  have hi : isInput t.type = false := by rw [h]; rfl
  have ho : isOutput t.type = false := by rw [h]; rfl
  have hr : isRedirect t.type = false := by rw [h]; rfl
  have hw : t.type ≠ TOKEN_WORD := by rw [h]; decide
  simp only [Stage.merge, t_command.stage, stageOf, plainWords_other t s hr hw,
    lastTarget_cons_of_not _ t s hi, lastTarget_cons_of_not _ t s ho, List.any_cons, h]
  simp [tokenType_beq]

theorem merge_redirect_in (c : t_command) (t n : Token) (s : List Token)
    (h : t.type = TOKEN_REDIRECT_IN) (hn : n.type = TOKEN_WORD) :
    ({ c with input_file := some n.value } : t_command).stage.merge (stageOf s) =
      c.stage.merge (stageOf (t :: n :: s)) := by
  have hi : isInput n.type = false := by rw [hn]; rfl
  have ho : isOutput n.type = false := by rw [hn]; rfl
  have hr : isRedirect t.type = true := by rw [h]; rfl
  simp only [Stage.merge, t_command.stage, stageOf, plainWords_redirect t n s hr hn,
    lastTarget_cons_cons _ t n s hi, lastTarget_cons_cons _ t n s ho, List.any_cons, h, hn]
  cases lastTarget isInput s <;> cases lastTarget isOutput s <;>
    simp [isInput, isOutput, tokenType_beq]

theorem merge_heredoc (c : t_command) (t n : Token) (s : List Token) (text : List Char)
    (h : t.type = TOKEN_HEREDOC) (hn : n.type = TOKEN_WORD) :
    ({ c with heredoc := some text } : t_command).stage.merge (stageOf s) =
      c.stage.merge (stageOf (t :: n :: s)) := by
  have hi : isInput n.type = false := by rw [hn]; rfl
  have ho : isOutput n.type = false := by rw [hn]; rfl
  have hr : isRedirect t.type = true := by rw [h]; rfl
  simp only [Stage.merge, t_command.stage, stageOf, plainWords_redirect t n s hr hn,
    lastTarget_cons_cons _ t n s hi, lastTarget_cons_cons _ t n s ho, List.any_cons, h, hn]
  cases lastTarget isInput s <;> cases lastTarget isOutput s <;>
    simp [isInput, isOutput, tokenType_beq]

theorem merge_redirect_out (c : t_command) (t n : Token) (s : List Token)
    (h : t.type = TOKEN_REDIRECT_OUT) (hn : n.type = TOKEN_WORD) :
    ({ c with output_file := some n.value, append_output := false } : t_command).stage.merge
        (stageOf s) =
      c.stage.merge (stageOf (t :: n :: s)) := by
  have hi : isInput n.type = false := by rw [hn]; rfl
  have ho : isOutput n.type = false := by rw [hn]; rfl
  have hr : isRedirect t.type = true := by rw [h]; rfl
  simp only [Stage.merge, t_command.stage, stageOf, plainWords_redirect t n s hr hn,
    lastTarget_cons_cons _ t n s hi, lastTarget_cons_cons _ t n s ho, List.any_cons, h, hn]
  cases lastTarget isInput s <;> cases lastTarget isOutput s <;>
    simp [isInput, isOutput, tokenType_beq]

theorem merge_append_out (c : t_command) (t n : Token) (s : List Token)
    (h : t.type = TOKEN_APPEND_OUT) (hn : n.type = TOKEN_WORD) :
    ({ c with output_file := some n.value, append_output := true } : t_command).stage.merge
        (stageOf s) =
      c.stage.merge (stageOf (t :: n :: s)) := by
  have hi : isInput n.type = false := by rw [hn]; rfl
  have ho : isOutput n.type = false := by rw [hn]; rfl
  have hr : isRedirect t.type = true := by rw [h]; rfl
  simp only [Stage.merge, t_command.stage, stageOf, plainWords_redirect t n s hr hn,
    lastTarget_cons_cons _ t n s hi, lastTarget_cons_cons _ t n s ho, List.any_cons, h, hn]
  cases lastTarget isInput s <;> cases lastTarget isOutput s <;>
    simp [isInput, isOutput, tokenType_beq]

/-! ## The command builder computes the specification's stages -/

theorem redirectsHaveWords_tail (t : Token) (ts : List Token)
    (h : redirectsHaveWords (t :: ts) = true) : redirectsHaveWords ts = true := by
  cases ts with
  | nil => rfl
  | cons n ts2 =>
    simp only [redirectsHaveWords, Bool.and_eq_true] at h
    exact h.2

theorem redirectsHaveWords_redirect (t : Token) (ts : List Token)
    (ht : isRedirect t.type = true) (h : redirectsHaveWords (t :: ts) = true) :
    ∃ n ts2, ts = n :: ts2 ∧ n.type = TOKEN_WORD ∧ redirectsHaveWords ts2 = true := by
  cases ts with
  | nil => simp [redirectsHaveWords, ht] at h
  | cons n ts2 =>
    refine ⟨n, ts2, rfl, ?_, ?_⟩
    · simp only [redirectsHaveWords, ht, Bool.and_eq_true, Bool.or_eq_true, Bool.not_true,
        Bool.false_eq_true, false_or, beq_iff_eq] at h
      exact h.1
    · have h2 := redirectsHaveWords_tail t (n :: ts2) h
      exact redirectsHaveWords_tail n ts2 h2

theorem segments_ne_nil (toks : List Token) : segments toks ≠ [] := by
  cases toks with
  | nil => simp [segments]
  | cons t ts =>
    simp only [segments]
    split
    · simp
    · split
      · simp
      · cases segments ts <;> simp [consHead]

theorem segments_cons_plain (t : Token) (ts : List Token) (he : t.type ≠ TOKEN_EOF)
    (hs : isSeparator t.type = false) : segments (t :: ts) = consHead t (segments ts) := by
  simp [segments, he, hs]

theorem segments_cons_separator (t : Token) (ts : List Token)
    (hs : isSeparator t.type = true) : segments (t :: ts) = [] :: segments ts := by
  have he : t.type ≠ TOKEN_EOF := by
    intro h; rw [h] at hs; simp [isSeparator, tokenType_beq] at hs
  simp [segments, he, hs]

theorem stagesFrom_consHead (a b : Stage) (t : Token) (segs : List (List Token))
    (hne : segs ≠ []) (h : ∀ s, b.merge (stageOf s) = a.merge (stageOf (t :: s))) :
    stagesFrom b segs = stagesFrom a (consHead t segs) := by
  cases segs with
  | nil => exact absurd rfl hne
  | cons s ss => simp [stagesFrom, consHead, h]

theorem stagesFrom_consHead2 (a b : Stage) (t n : Token) (segs : List (List Token))
    (hne : segs ≠ []) (h : ∀ s, b.merge (stageOf s) = a.merge (stageOf (t :: n :: s))) :
    stagesFrom b segs = stagesFrom a (consHead t (consHead n segs)) := by
  cases segs with
  | nil => exact absurd rfl hne
  | cons s ss => simp [stagesFrom, consHead, h]

theorem stagesFrom_empty (segs : List (List Token)) (hne : segs ≠ []) :
    stagesFrom emptyCommand.stage segs = segs.map stageOf := by
  cases segs with
  | nil => exact absurd rfl hne
  | cons s ss => simp [stagesFrom, emptyCommand_stage_merge]

/-- The loop of `parse_input`, started in any state, on tokens whose redirection operators
are all followed by a Word and whose separators fit the command array: the commands it
leaves are the stages of the segments, the first segment continuing the current command. -/
theorem parseLoop_stages (toks : List Token) (st : ParseState)
    (hr : redirectsHaveWords toks = true)
    (hc : st.done.length + 1 + toks.countP (fun t => isSeparator t.type) ≤ MAX_TOKENS) :
    ((parseLoop toks st).done ++ [(parseLoop toks st).cur]).map t_command.stage =
      st.done.map t_command.stage ++ stagesFrom st.cur.stage (segments toks) := by
  generalize hn : toks.length = n
  induction n using Nat.strong_induction_on generalizing toks st with
  | _ n ih =>
    cases toks with
    | nil => simp [parseLoop, segments, stagesFrom, merge_stageOf_nil]
    | cons t ts =>
      simp only [List.length_cons] at hn
      have hrt := redirectsHaveWords_tail t ts hr
      cases ht : t.type with
      | TOKEN_EOF =>
        rw [parseLoop_eof t ts st ht]
        simp [segments, ht, stagesFrom, merge_stageOf_nil]
      | TOKEN_WORD =>
        have hs : isSeparator t.type = false := by rw [ht]; rfl
        rw [parseLoop_word t ts st ht, ih ts.length (by omega) ts _ hrt
          (by simpa [List.countP_cons, hs] using hc) rfl,
          segments_cons_plain t ts (by rw [ht]; decide) hs]
        congr 1
        exact stagesFrom_consHead _ _ t _ (segments_ne_nil ts)
          (fun s => merge_word st.cur t s ht)
      | TOKEN_BACKGROUND =>
        have hs : isSeparator t.type = false := by rw [ht]; rfl
        rw [parseLoop_background t ts st ht, ih ts.length (by omega) ts _ hrt
          (by simpa [List.countP_cons, hs] using hc) rfl,
          segments_cons_plain t ts (by rw [ht]; decide) hs]
        congr 1
        exact stagesFrom_consHead _ _ t _ (segments_ne_nil ts)
          (fun s => merge_background st.cur t s ht)
      | TOKEN_PIPE =>
        have hs : isSeparator t.type = true := by rw [ht]; rfl
        have hc2 : st.done.length + 1 + (ts.countP (fun t => isSeparator t.type) + 1)
            ≤ MAX_TOKENS := by simpa [List.countP_cons, hs] using hc
        rw [parseLoop_separator t ts st hs (by omega), ih ts.length (by omega) ts _ hrt
          (by simp only [List.length_append, List.length_singleton]; omega) rfl,
          segments_cons_separator t ts hs, stagesFrom_empty _ (segments_ne_nil ts)]
        simp [stagesFrom, merge_stageOf_nil]
      | TOKEN_SEMICOLON =>
        have hs : isSeparator t.type = true := by rw [ht]; rfl
        have hc2 : st.done.length + 1 + (ts.countP (fun t => isSeparator t.type) + 1)
            ≤ MAX_TOKENS := by simpa [List.countP_cons, hs] using hc
        rw [parseLoop_separator t ts st hs (by omega), ih ts.length (by omega) ts _ hrt
          (by simp only [List.length_append, List.length_singleton]; omega) rfl,
          segments_cons_separator t ts hs, stagesFrom_empty _ (segments_ne_nil ts)]
        simp [stagesFrom, merge_stageOf_nil]
      | TOKEN_REDIRECT_IN =>
        have hs : isSeparator t.type = false := by rw [ht]; rfl
        obtain ⟨n, ts2, rfl, hnw, hr2⟩ :=
          redirectsHaveWords_redirect t ts (by rw [ht]; rfl) hr
        have hsn : isSeparator n.type = false := by rw [hnw]; rfl
        simp only [List.length_cons] at hn
        rw [parseLoop_redirect_in t n ts2 st ht hnw, ih ts2.length (by omega) ts2 _ hr2
          (by simpa [List.countP_cons, hs, hsn] using hc) rfl,
          segments_cons_plain t _ (by rw [ht]; decide) hs,
          segments_cons_plain n _ (by rw [hnw]; decide) hsn]
        congr 1
        exact stagesFrom_consHead2 _ _ t n _ (segments_ne_nil ts2)
          (fun s => merge_redirect_in st.cur t n s ht hnw)
      | TOKEN_HEREDOC =>
        have hs : isSeparator t.type = false := by rw [ht]; rfl
        obtain ⟨n, ts2, rfl, hnw, hr2⟩ :=
          redirectsHaveWords_redirect t ts (by rw [ht]; rfl) hr
        have hsn : isSeparator n.type = false := by rw [hnw]; rfl
        simp only [List.length_cons] at hn
        rw [parseLoop_heredoc t n ts2 st ht hnw, ih ts2.length (by omega) ts2 _ hr2
          (by simpa [List.countP_cons, hs, hsn] using hc) rfl,
          segments_cons_plain t _ (by rw [ht]; decide) hs,
          segments_cons_plain n _ (by rw [hnw]; decide) hsn]
        congr 1
        exact stagesFrom_consHead2 _ _ t n _ (segments_ne_nil ts2)
          (fun s => merge_heredoc st.cur t n s _ ht hnw)
      | TOKEN_REDIRECT_OUT =>
        have hs : isSeparator t.type = false := by rw [ht]; rfl
        obtain ⟨n, ts2, rfl, hnw, hr2⟩ :=
          redirectsHaveWords_redirect t ts (by rw [ht]; rfl) hr
        have hsn : isSeparator n.type = false := by rw [hnw]; rfl
        simp only [List.length_cons] at hn
        rw [parseLoop_redirect_out t n ts2 st ht hnw, ih ts2.length (by omega) ts2 _ hr2
          (by simpa [List.countP_cons, hs, hsn] using hc) rfl,
          segments_cons_plain t _ (by rw [ht]; decide) hs,
          segments_cons_plain n _ (by rw [hnw]; decide) hsn]
        congr 1
        exact stagesFrom_consHead2 _ _ t n _ (segments_ne_nil ts2)
          (fun s => merge_redirect_out st.cur t n s ht hnw)
      | TOKEN_APPEND_OUT =>
        have hs : isSeparator t.type = false := by rw [ht]; rfl
        obtain ⟨n, ts2, rfl, hnw, hr2⟩ :=
          redirectsHaveWords_redirect t ts (by rw [ht]; rfl) hr
        have hsn : isSeparator n.type = false := by rw [hnw]; rfl
        simp only [List.length_cons] at hn
        rw [parseLoop_append_out t n ts2 st ht hnw, ih ts2.length (by omega) ts2 _ hr2
          (by simpa [List.countP_cons, hs, hsn] using hc) rfl,
          segments_cons_plain t _ (by rw [ht]; decide) hs,
          segments_cons_plain n _ (by rw [hnw]; decide) hsn]
        congr 1
        exact stagesFrom_consHead2 _ _ t n _ (segments_ne_nil ts2)
          (fun s => merge_append_out st.cur t n s ht hnw)

/-- The function `parse_input` on tokens whose redirection operators are all followed by a
Word and whose separators fit the command array: its commands are exactly the stages of the
separator-delimited segments. -/
theorem parse_input_stage_list (toks : List Token) (con : Console)
    (hr : redirectsHaveWords toks = true)
    (hc : 1 + toks.countP (fun t => isSeparator t.type) ≤ MAX_TOKENS) :
    (parse_input toks con).1.commands.map t_command.stage = (segments toks).map stageOf := by
  have h := parseLoop_stages toks { done := [], cur := emptyCommand, con := con } hr
    (by simpa using hc)
  simp only [parse_input]
  rw [h, stagesFrom_empty _ (segments_ne_nil toks)]
  rfl

theorem consHead_length (t : Token) (segs : List (List Token)) (hne : segs ≠ []) :
    (consHead t segs).length = segs.length := by
  cases segs with
  | nil => exact absurd rfl hne
  | cons s ss => rfl

/-- Without an end marker before the last position, there is one segment more than there
are separators. -/
theorem segments_length (body : List Token) (e : Token)
    (hb : ∀ t ∈ body, t.type ≠ TOKEN_EOF) (he : e.type = TOKEN_EOF) :
    (segments (body ++ [e])).length = 1 + body.countP (fun t => isSeparator t.type) := by
  induction body with
  | nil => simp [segments, he]
  | cons t ts ih =>
    have ht : t.type ≠ TOKEN_EOF := hb t (by simp)
    have ih2 := ih (fun u hu => hb u (by simp [hu]))
    by_cases hs : isSeparator t.type = true
    · rw [List.cons_append, segments_cons_separator t _ hs]
      simp only [List.length_cons, List.countP_cons, hs, if_true, ih2]
      omega
    · have hs2 : isSeparator t.type = false := by simpa using hs
      rw [List.cons_append, segments_cons_plain t _ ht hs2,
        consHead_length _ _ (segments_ne_nil _)]
      simp only [List.countP_cons, hs2, ih2]
      simp

theorem isSeparator_eof : isSeparator TOKEN_EOF = false := rfl

theorem tokenize_countP_separator (input : List Char) :
    (tokenize input).countP (fun t => isSeparator t.type) =
      (tokenizeLoop input []).countP (fun t => isSeparator t.type) := by
  simp [tokenize, List.countP_append, List.countP_cons, isSeparator_eof]

/-- The separators of a tokenized line always fit the command array. -/
theorem tokenize_separators_fit (input : List Char) :
    1 + (tokenize input).countP (fun t => isSeparator t.type) ≤ MAX_TOKENS := by
  rw [tokenize_countP_separator]
  have h1 := List.countP_le_length (fun t => isSeparator t.type) (l := tokenizeLoop input [])
  have h2 := tokenizeLoop_length_le input
  simp only [MAX_TOKENS] at h2 ⊢
  omega

theorem tokenize_segments_length (input : List Char) :
    (segments (tokenize input)).length =
      1 + (tokenize input).countP (fun t => isSeparator t.type) := by
  rw [tokenize_countP_separator, tokenize]
  exact segments_length _ _ (fun t ht => (tokenizeLoop_mem input t ht).1) rfl

theorem tokenize_cat_grep :
    tokenize "cat < in.txt | grep x".toList =
      [⟨TOKEN_WORD, "cat".toList⟩, ⟨TOKEN_REDIRECT_IN, "<".toList⟩,
       ⟨TOKEN_WORD, "in.txt".toList⟩, ⟨TOKEN_PIPE, "|".toList⟩, ⟨TOKEN_WORD, "grep".toList⟩,
       ⟨TOKEN_WORD, "x".toList⟩, ⟨TOKEN_EOF, "EOF".toList⟩] := by
  rw [tokenize,
    tokenizeLoop_step "cat < in.txt | grep x".toList [] ⟨TOKEN_WORD, "cat".toList⟩
      " < in.txt | grep x".toList (by decide) (by decide) (by decide),
    tokenizeLoop_step _ _ ⟨TOKEN_REDIRECT_IN, "<".toList⟩
      " in.txt | grep x".toList (by decide) (by decide) (by decide),
    tokenizeLoop_step _ _ ⟨TOKEN_WORD, "in.txt".toList⟩
      " | grep x".toList (by decide) (by decide) (by decide),
    tokenizeLoop_step _ _ ⟨TOKEN_PIPE, "|".toList⟩
      " grep x".toList (by decide) (by decide) (by decide),
    tokenizeLoop_step _ _ ⟨TOKEN_WORD, "grep".toList⟩
      " x".toList (by decide) (by decide) (by decide),
    tokenizeLoop_step _ _ ⟨TOKEN_WORD, "x".toList⟩
      [] (by decide) (by decide) (by decide),
    tokenizeLoop_nil]
  rfl

theorem tokenize_cat_in_heredoc :
    tokenize "cat < f << EOF".toList =
      [⟨TOKEN_WORD, "cat".toList⟩, ⟨TOKEN_REDIRECT_IN, "<".toList⟩,
       ⟨TOKEN_WORD, "f".toList⟩, ⟨TOKEN_HEREDOC, "<<".toList⟩, ⟨TOKEN_WORD, "EOF".toList⟩,
       ⟨TOKEN_EOF, "EOF".toList⟩] := by
  rw [tokenize,
    tokenizeLoop_step "cat < f << EOF".toList [] ⟨TOKEN_WORD, "cat".toList⟩
      " < f << EOF".toList (by decide) (by decide) (by decide),
    tokenizeLoop_step _ _ ⟨TOKEN_REDIRECT_IN, "<".toList⟩
      " f << EOF".toList (by decide) (by decide) (by decide),
    tokenizeLoop_step _ _ ⟨TOKEN_WORD, "f".toList⟩
      " << EOF".toList (by decide) (by decide) (by decide),
    tokenizeLoop_step _ _ ⟨TOKEN_HEREDOC, "<<".toList⟩
      " EOF".toList (by decide) (by decide) (by decide),
    tokenizeLoop_step _ _ ⟨TOKEN_WORD, "EOF".toList⟩
      [] (by decide) (by decide) (by decide),
    tokenizeLoop_nil]
  rfl

/-! ## Operators present in a segment -/

theorem segments_head_cons (ts : List Token) (n : Token) (s0 : List Token)
    (ss : List (List Token)) (h : segments ts = (n :: s0) :: ss) :
    ∃ ts2, ts = n :: ts2 := by
  cases ts with
  | nil => simp [segments] at h
  | cons t ts2 =>
    simp only [segments] at h
    split at h
    · simp at h
    · split at h
      · simp at h
      · cases hseg : segments ts2 with
        | nil => exact absurd hseg (segments_ne_nil ts2)
        | cons s1 ss1 =>
          rw [hseg] at h
          simp only [consHead, List.cons.injEq] at h
          exact ⟨ts2, by rw [h.1.1]⟩

/-- Each segment inherits the property that redirection operators are followed by Words:
no segment ends in a redirection operator. -/
theorem segments_redirectsHaveWords (toks : List Token)
    (hr : redirectsHaveWords toks = true) :
    ∀ seg ∈ segments toks, redirectsHaveWords seg = true := by
  induction toks with
  | nil => intro seg hseg; simp [segments] at hseg; rw [hseg]; rfl
  | cons t ts ih =>
    have ih2 := ih (redirectsHaveWords_tail t ts hr)
    intro seg hseg
    by_cases he : t.type = TOKEN_EOF
    · simp [segments, he] at hseg; rw [hseg]; rfl
    · by_cases hs : isSeparator t.type = true
      · rw [segments_cons_separator t ts hs] at hseg
        rcases List.mem_cons.1 hseg with h | h
        · rw [h]; rfl
        · exact ih2 seg h
      · have hs2 : isSeparator t.type = false := by simpa using hs
        rw [segments_cons_plain t ts he hs2] at hseg
        cases hsegs : segments ts with
        | nil => exact absurd hsegs (segments_ne_nil ts)
        | cons s0 ss =>
          rw [hsegs] at hseg ih2
          simp only [consHead, List.mem_cons] at hseg
          rcases hseg with h | h
          · rw [h]
            have hs0 := ih2 s0 (by simp)
            cases s0 with
            | nil =>
              by_cases hrt : isRedirect t.type = true
              · obtain ⟨n, ts2, hts, hn, -⟩ := redirectsHaveWords_redirect t ts hrt hr
                have hsn : isSeparator n.type = false := by rw [hn]; rfl
                rw [hts, segments_cons_plain n ts2 (by rw [hn]; decide) hsn] at hsegs
                cases hx : segments ts2 with
                | nil => exact absurd hx (segments_ne_nil ts2)
                | cons x xs => rw [hx] at hsegs; simp [consHead] at hsegs
              · simp only [redirectsHaveWords]
                simpa using hrt
            | cons n s1 =>
              obtain ⟨ts2, hts⟩ := segments_head_cons ts n s1 ss hsegs
              rw [hts] at hr
              simp only [redirectsHaveWords, Bool.and_eq_true] at hr ⊢
              exact ⟨hr.1, hs0⟩
          · exact ih2 seg (by simp [h])

/-- In a segment whose operators are followed by Words, an operator of the kind `p` that
occurs in it has a recorded target. -/
theorem lastTarget_isSome (p : TokenType → Bool) (hp : ∀ ty, p ty = true → isRedirect ty = true)
    (seg : List Token) (hr : redirectsHaveWords seg = true)
    (hex : ∃ t ∈ seg, p t.type = true) : (lastTarget p seg).isSome = true := by
  induction seg with
  | nil => obtain ⟨t, ht, -⟩ := hex; simp at ht
  | cons t s ih =>
    cases s with
    | nil =>
      obtain ⟨u, hu, hpu⟩ := hex
      rw [List.mem_singleton.1 hu] at hpu
      simp [redirectsHaveWords, hp _ hpu] at hr
    | cons n s2 =>
      have hr2 := redirectsHaveWords_tail t (n :: s2) hr
      simp only [lastTarget]
      cases hl : lastTarget p (n :: s2) with
      | some r => rfl
      | none =>
        by_cases hpt : p t.type = true
        · simp [hpt]
        · obtain ⟨u, hu, hpu⟩ := hex
          rcases List.mem_cons.1 hu with h | h
          · rw [h] at hpu; exact absurd hpu hpt
          · have := ih hr2 ⟨u, h, hpu⟩
            rw [hl] at this
            simp at this

/-- The command at index `k` is the stage of the segment at index `k`. -/
theorem parse_input_stage_at (toks : List Token) (con : Console)
    (hr : redirectsHaveWords toks = true)
    (hc : 1 + toks.countP (fun t => isSeparator t.type) ≤ MAX_TOKENS)
    (k : Nat) (c : t_command) (seg : List Token)
    (hk : (parse_input toks con).1.commands[k]? = some c)
    (hseg : (segments toks)[k]? = some seg) : c.stage = stageOf seg := by
  have h := parse_input_stage_list toks con hr hc
  have h2 := congrArg (fun l => l[k]?) h
  simp only [List.getElem?_map, hk, hseg, Option.map_some'] at h2
  exact Option.some.inj h2

/-! ## Claims about the command builder -/

/-- C1: for every input line whose tokens have each redirection operator immediately
followed by a Word, `parse_input` yields exactly 1 + (number of Pipe and Sequence tokens)
stages, one per separator-delimited segment; the arguments of the k-th stage are, in
order, the Words of the k-th segment that do not immediately follow a redirection
operator, its program is the first of them (unset if there is none) and its input file is
the Word following the segment's last RedirectIn. -/
theorem parse_input_stages (input : List Char) (con : Console)
    (hr : redirectsHaveWords (tokenize input) = true) :
    (parse_input (tokenize input) con).1.cmd_count =
      1 + (tokenize input).countP (fun t => isSeparator t.type) ∧
    (segments (tokenize input)).length =
      1 + (tokenize input).countP (fun t => isSeparator t.type) ∧
    (parse_input (tokenize input) con).1.commands.map t_command.args =
      (segments (tokenize input)).map (plainWords false) ∧
    (parse_input (tokenize input) con).1.commands.map t_command.cmd =
      (segments (tokenize input)).map (fun seg => (plainWords false seg).head?) ∧
    (parse_input (tokenize input) con).1.commands.map t_command.input_file =
      (segments (tokenize input)).map (fun seg => (lastTarget isInput seg).map Prod.snd) := by
  have h := parse_input_stage_list (tokenize input) con hr (tokenize_separators_fit input)
  have hlen := congrArg List.length h
  simp only [List.length_map] at hlen
  refine ⟨?_, tokenize_segments_length input, ?_, ?_, ?_⟩
  · rw [t_parsed_input.cmd_count, hlen, tokenize_segments_length]
  · simpa [Function.comp_def, t_command.stage, stageOf] using
      congrArg (List.map Stage.arguments) h
  · simpa [Function.comp_def, t_command.stage, stageOf] using
      congrArg (List.map Stage.program) h
  · simpa [Function.comp_def, t_command.stage, stageOf] using
      congrArg (List.map Stage.input_file) h

/-- Witness for C1: the line `cat < in.txt | grep x` gives two stages, the first with
program `cat`, arguments `[cat]` and input `in.txt`, the second with program `grep` and
arguments `[grep, x]`. -/
theorem parse_input_stages_witness :
    (parse_input (tokenize "cat < in.txt | grep x".toList) ⟨[], [], []⟩).1.cmd_count = 2 ∧
    (parse_input (tokenize "cat < in.txt | grep x".toList) ⟨[], [], []⟩).1.commands.map
      t_command.args = [["cat".toList], ["grep".toList, "x".toList]] ∧
    (parse_input (tokenize "cat < in.txt | grep x".toList) ⟨[], [], []⟩).1.commands.map
      t_command.cmd = [some "cat".toList, some "grep".toList] ∧
    (parse_input (tokenize "cat < in.txt | grep x".toList) ⟨[], [], []⟩).1.commands.map
      t_command.input_file = [some "in.txt".toList, none] := by
  have h := parse_input_stages "cat < in.txt | grep x".toList ⟨[], [], []⟩
    (by rw [tokenize_cat_grep]; decide)
  obtain ⟨h1, -, h3, h4, h5⟩ := h
  rw [h1, h3, h4, h5, tokenize_cat_grep]
  decide

/-- C3, as the code behaves: `parse_input` does not record the kind of a stage boundary.
For all words `a` and `b` the parse result of `[Word a, Pipe, Word b, EndOfInput]` equals
that of `[Word a, Sequence, Word b, EndOfInput]`: both are the two stages with programs
`a` and `b`, and nothing in the result tells a Pipe from a Sequence. -/
theorem parse_input_pipe_same_as_sequence (a b : List Char) (con : Console) :
    parse_input [⟨TOKEN_WORD, a⟩, ⟨TOKEN_PIPE, ['|']⟩, ⟨TOKEN_WORD, b⟩,
        ⟨TOKEN_EOF, ['E', 'O', 'F']⟩] con =
      parse_input [⟨TOKEN_WORD, a⟩, ⟨TOKEN_SEMICOLON, [';']⟩, ⟨TOKEN_WORD, b⟩,
        ⟨TOKEN_EOF, ['E', 'O', 'F']⟩] con ∧
    parse_input [⟨TOKEN_WORD, a⟩, ⟨TOKEN_PIPE, ['|']⟩, ⟨TOKEN_WORD, b⟩,
        ⟨TOKEN_EOF, ['E', 'O', 'F']⟩] con =
      ({ commands := [{ emptyCommand with cmd := some a, args := [a] },
                      { emptyCommand with cmd := some b, args := [b] }] }, con) := by
  constructor <;> simp [parse_input, parseLoop, addWord, emptyCommand, MAX_TOKENS]

/-- Counterexample to C3 as stated: the parse results of `a | b` and of `a ; b` do not
differ. -/
theorem parse_input_separator_counterexample :
    ¬ (parse_input [⟨TOKEN_WORD, ['a']⟩, ⟨TOKEN_PIPE, ['|']⟩, ⟨TOKEN_WORD, ['b']⟩,
          ⟨TOKEN_EOF, ['E', 'O', 'F']⟩] ⟨[], [], []⟩ ≠
        parse_input [⟨TOKEN_WORD, ['a']⟩, ⟨TOKEN_SEMICOLON, [';']⟩, ⟨TOKEN_WORD, ['b']⟩,
          ⟨TOKEN_EOF, ['E', 'O', 'F']⟩] ⟨[], [], []⟩) := by
  decide

/-- C6: a line of whitespace only (the empty line included) is tokenized to just the end
marker, and `parse_input` of it yields exactly one stage, with no program, no arguments,
no input source, no output target and the background flag clear; nothing is read or
written. -/
theorem parse_input_blank_line (s : List Char) (con : Console)
    (h : s.all isspace = true) :
    tokenize s = [⟨TOKEN_EOF, ['E', 'O', 'F']⟩] ∧
    parse_input (tokenize s) con =
      ({ commands := [{ cmd := none, args := [], input_file := none, heredoc := none,
                        output_file := none, append_output := false,
                        run_in_background := false }] }, con) ∧
    (parse_input (tokenize s) con).1.cmd_count = 1 := by
  rw [tokenize_blank s h]
  refine ⟨rfl, ?_, ?_⟩ <;> simp [parse_input, parseLoop, emptyCommand, t_parsed_input.cmd_count]

/-- Witness for C6 at the line made of a space, a tab and a space. -/
theorem parse_input_blank_line_witness :
    tokenize [' ', '\t', ' '] = [⟨TOKEN_EOF, ['E', 'O', 'F']⟩] ∧
    parse_input (tokenize [' ', '\t', ' ']) ⟨[], [], []⟩ =
      ({ commands := [{ cmd := none, args := [], input_file := none, heredoc := none,
                        output_file := none, append_output := false,
                        run_in_background := false }] }, ⟨[], [], []⟩) ∧
    (parse_input (tokenize [' ', '\t', ' ']) ⟨[], [], []⟩).1.cmd_count = 1 :=
  parse_input_blank_line [' ', '\t', ' '] ⟨[], [], []⟩ (by decide)

/-- C8, as the code behaves: in a token sequence in which every redirection operator is
immediately followed by a Word (and whose separators fit the command array), a stage whose
segment contains both a `<` and a `<<` has both input sources set after `parse_input`: the
input filename is the Word following the last `<` and the here-document text is kept as
well; neither operator clears what the other stored. -/
theorem parse_input_keeps_both_inputs (toks : List Token) (con : Console)
    (hr : redirectsHaveWords toks = true)
    (hc : 1 + toks.countP (fun t => isSeparator t.type) ≤ MAX_TOKENS)
    (k : Nat) (c : t_command) (seg : List Token)
    (hk : (parse_input toks con).1.commands[k]? = some c)
    (hseg : (segments toks)[k]? = some seg)
    (hin : ∃ t ∈ seg, t.type = TOKEN_REDIRECT_IN)
    (hhd : ∃ t ∈ seg, t.type = TOKEN_HEREDOC) :
    c.input_file.isSome = true ∧ c.heredoc.isSome = true ∧
    c.input_file = (lastTarget isInput seg).map Prod.snd := by
  have hst := parse_input_stage_at toks con hr hc k c seg hk hseg
  have hsr := segments_redirectsHaveWords toks hr seg (List.getElem?_mem hseg)
  have h1 : c.input_file = (lastTarget isInput seg).map Prod.snd := by
    simpa [t_command.stage, stageOf] using congrArg Stage.input_file hst
  have h2 : c.heredoc.isSome = seg.any (fun t => t.type == TOKEN_HEREDOC) := by
    simpa [t_command.stage, stageOf] using congrArg Stage.has_heredoc hst
  have hsome := lastTarget_isSome isInput
    (fun ty h => by cases ty <;> simp_all [isInput, isRedirect, tokenType_beq]) seg hsr
    (by obtain ⟨t, ht, hty⟩ := hin; exact ⟨t, ht, by rw [hty]; rfl⟩)
  refine ⟨?_, ?_, h1⟩
  · rw [h1]; simpa using hsome
  · rw [h2, List.any_eq_true]
    obtain ⟨t, ht, hty⟩ := hhd
    exact ⟨t, ht, by rw [hty]; rfl⟩

theorem read_heredoc_example :
    read_heredoc ['E', 'O', 'F'] ⟨['a', '\n', 'E', 'O', 'F', '\n'], [], []⟩ =
      (['a', '\n'], ⟨[], ["heredoc> ", "heredoc> "], []⟩) :=
  read_heredoc_lines ['E', 'O', 'F'] [['a']] [] ⟨['a', '\n', 'E', 'O', 'F', '\n'], [], []⟩
    (by decide) (by decide) (by decide) rfl

theorem parse_input_cat_in_heredoc :
    (parse_input (tokenize "cat < f << EOF".toList) ⟨"a\nEOF\n".toList, [], []⟩).1.commands =
      [{ cmd := some "cat".toList, args := ["cat".toList], input_file := some "f".toList,
         heredoc := some "a\n".toList, output_file := none, append_output := false,
         run_in_background := false }] := by
  rw [tokenize_cat_in_heredoc]
  simp [parse_input, parseLoop, addWord, emptyCommand, read_heredoc_example]

/-- Witness for the amended C8: the line `cat < f << EOF` with the lines `a`, `EOF` on
standard input. -/
theorem parse_input_keeps_both_inputs_witness :
    (parse_input (tokenize "cat < f << EOF".toList) ⟨"a\nEOF\n".toList, [], []⟩).1.commands[0]? =
      some { cmd := some "cat".toList, args := ["cat".toList], input_file := some "f".toList,
             heredoc := some "a\n".toList, output_file := none, append_output := false,
             run_in_background := false } ∧
    (some "f".toList).isSome = true ∧ (some "a\n".toList).isSome = true ∧
    some "f".toList =
      (lastTarget isInput [⟨TOKEN_WORD, "cat".toList⟩, ⟨TOKEN_REDIRECT_IN, "<".toList⟩,
        ⟨TOKEN_WORD, "f".toList⟩, ⟨TOKEN_HEREDOC, "<<".toList⟩,
        ⟨TOKEN_WORD, "EOF".toList⟩]).map Prod.snd := by
  have hk : (parse_input (tokenize "cat < f << EOF".toList)
      ⟨"a\nEOF\n".toList, [], []⟩).1.commands[0]? =
      some { cmd := some "cat".toList, args := ["cat".toList], input_file := some "f".toList,
             heredoc := some "a\n".toList, output_file := none, append_output := false,
             run_in_background := false } := by
    rw [parse_input_cat_in_heredoc]; rfl
  exact ⟨hk, parse_input_keeps_both_inputs (tokenize "cat < f << EOF".toList)
    ⟨"a\nEOF\n".toList, [], []⟩ (by rw [tokenize_cat_in_heredoc]; decide)
    (tokenize_separators_fit _) 0 _ _ hk (by rw [tokenize_cat_in_heredoc]; decide)
    ⟨⟨TOKEN_REDIRECT_IN, "<".toList⟩, by decide, rfl⟩
    ⟨⟨TOKEN_HEREDOC, "<<".toList⟩, by decide, rfl⟩⟩

/-- Counterexample to C8 as stated: for the line `cat < f << EOF`, with the lines `a` and
`EOF` on standard input, the stage contains a `<` followed by a filename and a `<<` followed
by a delimiter, and after `parse_input` both input sources are set: the filename of the
earlier `<` is retained next to the here-document text. -/
theorem parse_input_input_sources_counterexample :
    (parse_input (tokenize "cat < f << EOF".toList) ⟨"a\nEOF\n".toList, [], []⟩).1.commands.map
      (fun c => (c.input_file, c.heredoc)) = [(some "f".toList, some "a\n".toList)] ∧
    ¬ (∀ c ∈ (parse_input (tokenize "cat < f << EOF".toList)
          ⟨"a\nEOF\n".toList, [], []⟩).1.commands, c.input_file = none ∨ c.heredoc = none) := by
  rw [parse_input_cat_in_heredoc]
  decide

/-! ## The error branches of the command builder -/

theorem parseLoop_redirect_error (t n : Token) (ts : List Token) (st : ParseState)
    (h : isRedirect t.type = true) (hn : n.type ≠ TOKEN_WORD) :
    parseLoop (t :: n :: ts) st =
      parseLoop ts { st with con := st.con.eprint (expectedMessage t.type) } := by
  cases ht : t.type <;> simp [isRedirect, ht, tokenType_beq] at h <;>
    simp only [parseLoop, ht, hn, if_false, expectedMessage]

theorem parseLoop_redirect_last (t : Token) (st : ParseState)
    (h : isRedirect t.type = true) :
    parseLoop [t] st = { st with con := st.con.eprint (expectedMessage t.type) } := by
  cases ht : t.type <;> simp [isRedirect, ht, tokenType_beq] at h <;>
    simp only [parseLoop, ht, expectedMessage]

theorem parseLoop_separator_full (t : Token) (ts : List Token) (st : ParseState)
    (h : isSeparator t.type = true) (hc : ¬ st.done.length + 1 < MAX_TOKENS) :
    parseLoop (t :: ts) st =
      parseLoop ts { st with con := st.con.eprint (tooManyMessage t.type) } := by
  cases ht : t.type <;> simp [isSeparator, ht, tokenType_beq] at h <;>
    cases ts <;> simp only [parseLoop, ht, hc, if_false, tooManyMessage]

/-! ## Induction over the command builder loop -/

theorem isRedirect_of_remaining (ty : TokenType) (he : ty ≠ TOKEN_EOF) (hw : ty ≠ TOKEN_WORD)
    (hb : ty ≠ TOKEN_BACKGROUND) (hs : ¬ isSeparator ty = true) : isRedirect ty = true := by
  cases ty <;> simp_all [isSeparator, isRedirect, tokenType_beq]

/-- Every run of the loop of `parse_input` is a sequence of the nine state changes below.
`P r st` is a property of the state `st` when at most `r` tokens other than end markers
remain; a Word and a separator each use up one of them. -/
theorem parseLoop_budget (P : Nat → ParseState → Prop)
    (hmono : ∀ r st, P (r + 1) st → P r st)
    (hword : ∀ r st v, P (r + 1) st → P r { st with cur := addWord st.cur v })
    (hin : ∀ r st v, P r st → P r { st with cur := { st.cur with input_file := some v } })
    (hhd : ∀ r st v, P r st →
      P r { st with cur := { st.cur with heredoc := some (read_heredoc v st.con).1 },
                    con := (read_heredoc v st.con).2 })
    (hout : ∀ r st v b, P r st →
      P r { st with cur := { st.cur with output_file := some v, append_output := b } })
    (hbg : ∀ r st, P r st → P r { st with cur := { st.cur with run_in_background := true } })
    (hsep : ∀ r st, P (r + 1) st → st.done.length + 1 < MAX_TOKENS →
      P r { st with done := st.done ++ [st.cur], cur := emptyCommand })
    (hfull : ∀ r st ty, P (r + 1) st → isSeparator ty = true →
      ¬ st.done.length + 1 < MAX_TOKENS →
      P r { st with con := st.con.eprint (tooManyMessage ty) })
    (herr : ∀ r st ty, P r st → isRedirect ty = true →
      P r { st with con := st.con.eprint (expectedMessage ty) })
    (toks : List Token) (st : ParseState)
    (h : P (toks.countP (fun t => decide (t.type ≠ TOKEN_EOF))) st) :
    P 0 (parseLoop toks st) := by
  have hzero : ∀ r st, P r st → P 0 st := by
    intro r
    induction r with
    | zero => intro st h; exact h
    | succ r ih => intro st h; exact ih st (hmono r st h)
  generalize hn : toks.length = n
  induction n using Nat.strong_induction_on generalizing toks st with
  | _ n ih =>
    cases toks with
    | nil => simpa [parseLoop] using hzero _ st h
    | cons t ts =>
      simp only [List.length_cons] at hn
      by_cases he : t.type = TOKEN_EOF
      · rw [parseLoop_eof t ts st he]; exact hzero _ st h
      · have hcount : (t :: ts).countP (fun t => decide (t.type ≠ TOKEN_EOF)) =
            ts.countP (fun t => decide (t.type ≠ TOKEN_EOF)) + 1 := by
          simp [List.countP_cons, he]
        rw [hcount] at h
        by_cases hw : t.type = TOKEN_WORD
        · rw [parseLoop_word t ts st hw]
          exact ih ts.length (by omega) ts _ (hword _ st t.value h) rfl
        · by_cases hb : t.type = TOKEN_BACKGROUND
          · rw [parseLoop_background t ts st hb]
            exact ih ts.length (by omega) ts _ (hbg _ st (hmono _ st h)) rfl
          · by_cases hs : isSeparator t.type = true
            · by_cases hc : st.done.length + 1 < MAX_TOKENS
              · rw [parseLoop_separator t ts st hs hc]
                exact ih ts.length (by omega) ts _ (hsep _ st h hc) rfl
              · rw [parseLoop_separator_full t ts st hs hc]
                exact ih ts.length (by omega) ts _ (hfull _ st t.type h hs hc) rfl
            · have hr : isRedirect t.type = true :=
                isRedirect_of_remaining t.type he hw hb hs
              have h0 := hmono _ st h
              cases ts with
              | nil =>
                rw [parseLoop_redirect_last t st hr]
                exact hzero _ _ (herr _ st t.type h0 hr)
              | cons n ts2 =>
                simp only [List.length_cons] at hn
                have hdrop : ∀ st2, P ((n :: ts2).countP (fun t => decide (t.type ≠ TOKEN_EOF))) st2 →
                    P (ts2.countP (fun t => decide (t.type ≠ TOKEN_EOF))) st2 := by
                  intro st2 h2
                  by_cases hne : n.type = TOKEN_EOF
                  · simpa [List.countP_cons, hne] using h2
                  · have : (n :: ts2).countP (fun t => decide (t.type ≠ TOKEN_EOF)) =
                        ts2.countP (fun t => decide (t.type ≠ TOKEN_EOF)) + 1 := by
                      simp [List.countP_cons, hne]
                    rw [this] at h2
                    exact hmono _ st2 h2
                by_cases hnw : n.type = TOKEN_WORD
                · cases ht : t.type with
                  | TOKEN_REDIRECT_IN =>
                    rw [parseLoop_redirect_in t n ts2 st ht hnw]
                    exact ih ts2.length (by omega) ts2 _ (hdrop _ (hin _ st n.value h0)) rfl
                  | TOKEN_HEREDOC =>
                    rw [parseLoop_heredoc t n ts2 st ht hnw]
                    exact ih ts2.length (by omega) ts2 _ (hdrop _ (hhd _ st n.value h0)) rfl
                  | TOKEN_REDIRECT_OUT =>
                    rw [parseLoop_redirect_out t n ts2 st ht hnw]
                    exact ih ts2.length (by omega) ts2 _
                      (hdrop _ (hout _ st n.value false h0)) rfl
                  | TOKEN_APPEND_OUT =>
                    rw [parseLoop_append_out t n ts2 st ht hnw]
                    exact ih ts2.length (by omega) ts2 _
                      (hdrop _ (hout _ st n.value true h0)) rfl
                  | _ => rw [ht] at hr; simp [isRedirect, tokenType_beq] at hr
                · rw [parseLoop_redirect_error t n ts2 st hr hnw]
                  exact ih ts2.length (by omega) ts2 _ (hdrop _ (herr _ st t.type h0 hr)) rfl

/-! ## Claims about the error branches -/

theorem tokenize_cat_in_pipe :
    tokenize "cat < | grep".toList =
      [⟨TOKEN_WORD, "cat".toList⟩, ⟨TOKEN_REDIRECT_IN, "<".toList⟩,
       ⟨TOKEN_PIPE, "|".toList⟩, ⟨TOKEN_WORD, "grep".toList⟩,
       ⟨TOKEN_EOF, "EOF".toList⟩] := by
  rw [tokenize,
    tokenizeLoop_step "cat < | grep".toList [] ⟨TOKEN_WORD, "cat".toList⟩
      " < | grep".toList (by decide) (by decide) (by decide),
    tokenizeLoop_step _ _ ⟨TOKEN_REDIRECT_IN, "<".toList⟩
      " | grep".toList (by decide) (by decide) (by decide),
    tokenizeLoop_step _ _ ⟨TOKEN_PIPE, "|".toList⟩
      " grep".toList (by decide) (by decide) (by decide),
    tokenizeLoop_step _ _ ⟨TOKEN_WORD, "grep".toList⟩
      [] (by decide) (by decide) (by decide),
    tokenizeLoop_nil]
  rfl

theorem tokenize_cat_in_background :
    tokenize "cat < &".toList =
      [⟨TOKEN_WORD, "cat".toList⟩, ⟨TOKEN_REDIRECT_IN, "<".toList⟩,
       ⟨TOKEN_BACKGROUND, "&".toList⟩, ⟨TOKEN_EOF, "EOF".toList⟩] := by
  rw [tokenize,
    tokenizeLoop_step "cat < &".toList [] ⟨TOKEN_WORD, "cat".toList⟩
      " < &".toList (by decide) (by decide) (by decide),
    tokenizeLoop_step _ _ ⟨TOKEN_REDIRECT_IN, "<".toList⟩
      " &".toList (by decide) (by decide) (by decide),
    tokenizeLoop_step _ _ ⟨TOKEN_BACKGROUND, "&".toList⟩
      [] (by decide) (by decide) (by decide),
    tokenizeLoop_nil]
  rfl

/-- C11, as the code behaves: when the loop of `parse_input` stands on a redirection
operator `op` followed by a token `t` that is not a Word, it writes the expected-filename
(or expected-delimiter) diagnostic of `op`, changes neither the finished commands nor the
current command, reads nothing from standard input and writes nothing to standard output,
and goes on with the tokens after `t`: it advances past both `op` and `t`, so `t` itself
is consumed without effect. -/
theorem parse_input_redirect_without_word (op t : Token) (rest : List Token)
    (st : ParseState) (hop : isRedirect op.type = true) (ht : t.type ≠ TOKEN_WORD) :
    parseLoop (op :: t :: rest) st =
      parseLoop rest
        { done := st.done, cur := st.cur,
          con := { stdin := st.con.stdin, stdout := st.con.stdout,
                   stderr := st.con.stderr ++ [expectedMessage op.type] } } :=
  parseLoop_redirect_error op t rest st hop ht

/-- Witness for the amended C11: a `<` followed by a Pipe token. -/
theorem parse_input_redirect_without_word_witness :
    parseLoop [⟨TOKEN_REDIRECT_IN, ['<']⟩, ⟨TOKEN_PIPE, ['|']⟩, ⟨TOKEN_WORD, ['g']⟩,
        ⟨TOKEN_EOF, ['E', 'O', 'F']⟩] { done := [], cur := emptyCommand, con := ⟨[], [], []⟩ } =
      parseLoop [⟨TOKEN_WORD, ['g']⟩, ⟨TOKEN_EOF, ['E', 'O', 'F']⟩]
        { done := [], cur := emptyCommand,
          con := { stdin := [], stdout := [],
                   stderr := [] ++ [expectedMessage TOKEN_REDIRECT_IN] } } :=
  parse_input_redirect_without_word ⟨TOKEN_REDIRECT_IN, ['<']⟩ ⟨TOKEN_PIPE, ['|']⟩
    [⟨TOKEN_WORD, ['g']⟩, ⟨TOKEN_EOF, ['E', 'O', 'F']⟩]
    { done := [], cur := emptyCommand, con := ⟨[], [], []⟩ } rfl (by decide)

/-- Counterexample to C11 as stated: in `cat < | grep` the Pipe directly after `<` does not
take effect (one stage with the arguments `cat` and `grep`, not two stages), and in
`cat < &` the Background token directly after `<` does not set the background flag; the
loop does not continue from the token after the operator. -/
theorem parse_input_redirect_counterexample :
    (parse_input (tokenize "cat < | grep".toList) ⟨[], [], []⟩) =
      ({ commands := [{ cmd := some "cat".toList, args := ["cat".toList, "grep".toList],
                        input_file := none, heredoc := none, output_file := none,
                        append_output := false, run_in_background := false }] },
       ⟨[], [], ["Error: Expected filename after <\n"]⟩) ∧
    (parse_input (tokenize "cat < &".toList) ⟨[], [], []⟩) =
      ({ commands := [{ cmd := some "cat".toList, args := ["cat".toList],
                        input_file := none, heredoc := none, output_file := none,
                        append_output := false, run_in_background := false }] },
       ⟨[], [], ["Error: Expected filename after <\n"]⟩) ∧
    parseLoop [⟨TOKEN_REDIRECT_IN, ['<']⟩, ⟨TOKEN_PIPE, ['|']⟩, ⟨TOKEN_WORD, ['g']⟩,
        ⟨TOKEN_EOF, ['E', 'O', 'F']⟩] { done := [], cur := emptyCommand, con := ⟨[], [], []⟩ } ≠
      parseLoop [⟨TOKEN_PIPE, ['|']⟩, ⟨TOKEN_WORD, ['g']⟩, ⟨TOKEN_EOF, ['E', 'O', 'F']⟩]
        { done := [], cur := emptyCommand,
          con := ⟨[], [], ["Error: Expected filename after <\n"]⟩ } := by
  rw [tokenize_cat_in_pipe, tokenize_cat_in_background]
  decide

/-! ## Unfolding the here-document loop -/

theorem heredocLoop_none (d buffer : List Char) (total : Nat) (con : Console)
    (h : fgets MAX_CMD_LEN con.stdin = none) :
    heredocLoop d buffer total con = (buffer, con) := by
  rw [heredocLoop]
  split
  · rfl
  · rename_i h2; rw [h] at h2; cases h2

theorem heredocLoop_match (d buffer : List Char) (total : Nat) (con : Console)
    (raw stdin2 : List Char) (h : fgets MAX_CMD_LEN con.stdin = some (raw, stdin2))
    (hd : lineText raw = d) :
    heredocLoop d buffer total con = (buffer, { con with stdin := stdin2 }) := by
  rw [heredocLoop]
  split
  · rename_i h2; rw [h] at h2; cases h2
  · rename_i h2; rw [h] at h2; cases h2
    simp only [hd, if_true]

theorem heredocLoop_append (d buffer : List Char) (total : Nat) (con : Console)
    (raw stdin2 : List Char) (h : fgets MAX_CMD_LEN con.stdin = some (raw, stdin2))
    (hd : lineText raw ≠ d)
    (hfit : total + (lineText raw).length + 2 < MAX_HEREDOC_SIZE) :
    heredocLoop d buffer total con =
      heredocLoop d (buffer ++ lineText raw ++ ['\n'])
        (total + ((lineText raw).length + 1))
        { con with stdin := stdin2, stdout := con.stdout ++ ["heredoc> "] } := by
  rw [heredocLoop]
  split
  · rename_i h2; rw [h] at h2; cases h2
  · rename_i h2; rw [h] at h2; cases h2
    simp only [hd, hfit, if_true, if_false]

theorem heredocLoop_overflow (d buffer : List Char) (total : Nat) (con : Console)
    (raw stdin2 : List Char) (h : fgets MAX_CMD_LEN con.stdin = some (raw, stdin2))
    (hd : lineText raw ≠ d)
    (hfit : ¬ total + (lineText raw).length + 2 < MAX_HEREDOC_SIZE) :
    heredocLoop d buffer total con =
      (buffer, { con with stdin := stdin2, stderr := con.stderr ++ [heredocWarning] }) := by
  rw [heredocLoop]
  split
  · rename_i h2; rw [h] at h2; cases h2
  · rename_i h2; rw [h] at h2; cases h2
    simp only [hd, hfit, if_false, heredocWarning]

/-- The loop of `read_heredoc` writes at most its own warning to standard error. -/
theorem heredocLoop_stderr (d buffer : List Char) (total : Nat) (con : Console) :
    (heredocLoop d buffer total con).2.stderr = con.stderr ∨
      (heredocLoop d buffer total con).2.stderr = con.stderr ++ [heredocWarning] := by
  induction buffer, total, con using heredocLoop.induct d with
  | case1 buffer total con h => rw [heredocLoop_none d buffer total con h]; exact Or.inl rfl
  | case2 buffer total con raw stdin2 h line hd =>
    rw [heredocLoop_match d buffer total con raw stdin2 h hd]; exact Or.inl rfl
  | case3 buffer total con raw stdin2 h line hd line_len hfit ih =>
    rw [heredocLoop_append d buffer total con raw stdin2 h hd hfit]; exact ih
  | case4 buffer total con raw stdin2 h line hd line_len hfit =>
    rw [heredocLoop_overflow d buffer total con raw stdin2 h hd hfit]; exact Or.inr rfl

theorem read_heredoc_tooManyCount (d : List Char) (con : Console) :
    tooManyCount (read_heredoc d con).2 = tooManyCount con := by
  rcases heredocLoop_stderr d [] 0 { con with stdout := con.stdout ++ ["heredoc> "] } with h | h
  · simp only [tooManyCount, read_heredoc, h]
  · simp only [tooManyCount, read_heredoc, h, List.countP_append]
    have : List.countP isTooMany [heredocWarning] = 0 := by decide
    rw [this]; rfl

theorem eprint_expected_tooManyCount (con : Console) (ty : TokenType) :
    tooManyCount (con.eprint (expectedMessage ty)) = tooManyCount con := by
  have : List.countP isTooMany [expectedMessage ty] = 0 := by
    cases ty <;> decide
  simp only [tooManyCount, Console.eprint, List.countP_append, this]
  rfl

/-! ## Invariants of the command builder -/

theorem addWord_cmd_head (c : t_command) (v : List Char) (h : c.cmd = c.args.head?) :
    (addWord c v).cmd = (addWord c v).args.head? := by
  cases hc : c.cmd with
  | none =>
    rw [hc] at h
    have hnil : c.args = [] := by
      cases ha : c.args with
      | nil => rfl
      | cons x xs => rw [ha] at h; simp at h
    simp [addWord, hc, hnil]
  | some p =>
    rw [hc] at h
    cases ha : c.args with
    | nil => rw [ha] at h; simp at h
    | cons x xs => rw [ha] at h; simp [addWord, hc, ha] at h ⊢; exact h

/-- In every command the builder leaves, the program is the first argument. -/
theorem parseLoop_cmd_head (toks : List Token) (st : ParseState)
    (hd : ∀ c ∈ st.done, c.cmd = c.args.head?) (hc : st.cur.cmd = st.cur.args.head?) :
    ∀ c ∈ (parseLoop toks st).done ++ [(parseLoop toks st).cur], c.cmd = c.args.head? := by
  have h := parseLoop_budget
    (fun _ s => (∀ c ∈ s.done, c.cmd = c.args.head?) ∧ s.cur.cmd = s.cur.args.head?)
    (fun _ _ h => h)
    (fun _ s v h => ⟨h.1, addWord_cmd_head s.cur v h.2⟩)
    (fun _ _ _ h => h) (fun _ _ _ h => h) (fun _ _ _ _ h => h) (fun _ _ h => h)
    (fun _ s h _ => ⟨by
      intro c hc
      rcases List.mem_append.1 hc with hc | hc
      · exact h.1 c hc
      · rw [List.mem_singleton.1 hc]; exact h.2, rfl⟩)
    (fun _ _ _ h _ _ => h) (fun _ _ _ h _ => h) toks st ⟨hd, hc⟩
  intro c hc
  rcases List.mem_append.1 hc with hc | hc
  · exact h.1 c hc
  · rw [List.mem_singleton.1 hc]; exact h.2

/-- The command array never holds more than `MAX_TOKENS` commands. -/
theorem parseLoop_done_length (toks : List Token) (st : ParseState)
    (h : st.done.length + 1 ≤ MAX_TOKENS) :
    (parseLoop toks st).done.length + 1 ≤ MAX_TOKENS :=
  parseLoop_budget (fun _ s => s.done.length + 1 ≤ MAX_TOKENS)
    (fun _ _ h => h) (fun _ _ _ h => h) (fun _ _ _ h => h) (fun _ _ _ h => h)
    (fun _ _ _ _ h => h) (fun _ _ h => h)
    (fun _ s _ hc => by
      simp only [List.length_append, List.length_singleton]; omega)
    (fun _ _ _ h _ _ => h) (fun _ _ _ h _ => h) toks st h

/-- C13: for every token sequence (in particular every one produced by `tokenize`) and
every stage of the result of `parse_input`, the program is set if and only if the argument
list is non-empty, and whenever the program is set the first argument equals it. -/
theorem parse_input_program_first_argument (toks : List Token) (con : Console)
    (c : t_command) (hc : c ∈ (parse_input toks con).1.commands) :
    (c.cmd.isSome = true ↔ c.args ≠ []) ∧ (∀ p, c.cmd = some p → c.args[0]? = some p) := by
  have h := parseLoop_cmd_head toks { done := [], cur := emptyCommand, con := con }
    (by simp) rfl c hc
  constructor
  · rw [h]
    cases c.args <;> simp
  · intro p hp
    rw [h] at hp
    cases ha : c.args with
    | nil => rw [ha] at hp; simp at hp
    | cons x xs => rw [ha] at hp; simpa using hp

/-- Witness for C13: the first stage of `cat < in.txt | grep x`. -/
theorem parse_input_program_first_argument_witness :
    ((some "cat".toList).isSome = true ↔ ["cat".toList] ≠ []) ∧
    (∀ p, some "cat".toList = some p → ["cat".toList][0]? = some p) :=
  parse_input_program_first_argument (tokenize "cat < in.txt | grep x".toList) ⟨[], [], []⟩
    { cmd := some "cat".toList, args := ["cat".toList], input_file := some "in.txt".toList,
      heredoc := none, output_file := none, append_output := false,
      run_in_background := false }
    (by rw [tokenize_cat_grep]; decide)

/-! ## Slots used by a tokenized line -/

theorem slotsUsed_snoc (done : List t_command) (cur : t_command) :
    slotsUsed (done ++ [cur]) =
      (done.map t_command.arg_count).sum + cur.args.length + done.length := by
  simp [slotsUsed, t_command.arg_count]

theorem addWord_args_length (c : t_command) (v : List Char) :
    (addWord c v).args.length = c.args.length + 1 := by
  cases hc : c.cmd <;> simp [addWord, hc]

/-- Each Word and each separator takes one slot, nothing else takes any; while the slots in
use and the tokens left together stay below `MAX_TOKENS`, the command array never fills up
and no too-many-commands diagnostic is written. -/
theorem parseLoop_slots (toks : List Token) (st : ParseState)
    (h : slotsUsed (st.done ++ [st.cur]) +
      toks.countP (fun t => decide (t.type ≠ TOKEN_EOF)) ≤ MAX_TOKENS - 1) :
    slotsUsed ((parseLoop toks st).done ++ [(parseLoop toks st).cur]) ≤ MAX_TOKENS - 1 ∧
    tooManyCount (parseLoop toks st).con = tooManyCount st.con := by
  have key := parseLoop_budget
    (fun r s => slotsUsed (s.done ++ [s.cur]) + r ≤ MAX_TOKENS - 1 ∧
      tooManyCount s.con = tooManyCount st.con)
    (fun r s h => ⟨by have := h.1; omega, h.2⟩)
    (fun r s v h => ⟨by
      have h1 := h.1
      rw [slotsUsed_snoc] at h1 ⊢
      simp only [addWord_args_length]
      omega, h.2⟩)
    (fun r s v h => ⟨by
      have h1 := h.1
      rw [slotsUsed_snoc] at h1 ⊢
      exact h1, h.2⟩)
    (fun r s v h => ⟨by
      have h1 := h.1
      rw [slotsUsed_snoc] at h1 ⊢
      exact h1, by
      simp only
      rw [read_heredoc_tooManyCount]; exact h.2⟩)
    (fun r s v b h => ⟨by
      have h1 := h.1
      rw [slotsUsed_snoc] at h1 ⊢
      exact h1, h.2⟩)
    (fun r s h => ⟨by
      have h1 := h.1
      rw [slotsUsed_snoc] at h1 ⊢
      exact h1, h.2⟩)
    (fun r s h hc => ⟨by
      have h1 := h.1
      rw [slotsUsed_snoc] at h1 ⊢
      simp only [List.map_append, List.sum_append, List.map_cons, List.map_nil,
        List.sum_cons, List.sum_nil, List.length_append, List.length_singleton,
        t_command.arg_count, emptyCommand, List.length_nil]
      omega, h.2⟩)
    (fun r s ty h _ hc => by
      exfalso
      have h1 := h.1
      rw [slotsUsed_snoc] at h1
      simp only [MAX_TOKENS] at h1 hc
      omega)
    (fun r s ty h _ => ⟨by
      have h1 := h.1
      rw [slotsUsed_snoc] at h1 ⊢
      exact h1, by
      simp only
      rw [eprint_expected_tooManyCount]; exact h.2⟩)
    toks st ⟨h, rfl⟩
  exact ⟨by simpa using key.1, key.2⟩

theorem countP_not_eof_of_all (l : List Token) (h : ∀ t ∈ l, t.type ≠ TOKEN_EOF) :
    l.countP (fun t => decide (t.type ≠ TOKEN_EOF)) = l.length := by
  induction l with
  | nil => rfl
  | cons t ts ih =>
    have ht : t.type ≠ TOKEN_EOF := h t (by simp)
    have ih2 := ih (fun u hu => h u (by simp [hu]))
    rw [List.countP_cons, ih2]
    simp [ht]

theorem tokenize_countP_not_eof (input : List Char) :
    (tokenize input).countP (fun t => decide (t.type ≠ TOKEN_EOF)) ≤ MAX_TOKENS - 1 := by
  have h1 := countP_not_eof_of_all (tokenizeLoop input [])
    (fun t ht => (tokenizeLoop_mem input t ht).1)
  have h2 := tokenizeLoop_length_le input
  simp only [tokenize, List.countP_append, h1]
  have : List.countP (fun t => decide (t.type ≠ TOKEN_EOF))
      [(⟨TOKEN_EOF, ['E', 'O', 'F']⟩ : Token)] = 0 := by decide
  omega

/-- For a tokenized line the slots in use stay within `MAX_TOKENS - 1` and the
too-many-commands branch is never taken. -/
theorem parse_input_tokenize_slots (input : List Char) (con : Console) :
    slotsUsed (parse_input (tokenize input) con).1.commands ≤ MAX_TOKENS - 1 ∧
    tooManyCount (parse_input (tokenize input) con).2 = tooManyCount con := by
  have h := parseLoop_slots (tokenize input) { done := [], cur := emptyCommand, con := con }
    (by
      have := tokenize_countP_not_eof input
      simpa [slotsUsed, t_command.arg_count, emptyCommand] using this)
  exact h

theorem le_sum_of_mem (l : List Nat) (x : Nat) (h : x ∈ l) : x ≤ l.sum := by
  induction l with
  | nil => simp at h
  | cons y ys ih =>
    rcases List.mem_cons.1 h with h | h
    · rw [h]; simp
    · have := ih h; simp only [List.sum_cons]; omega

/-! ## A line of pipes -/

theorem tokenizeLoop_pipes (n : Nat) (tokens : List Token) :
    tokenizeLoop (List.replicate n '|') tokens =
      tokens ++ List.replicate (min n (MAX_TOKENS - 1 - tokens.length)) ⟨TOKEN_PIPE, ['|']⟩ := by
  induction n generalizing tokens with
  | zero => simp [tokenizeLoop_nil]
  | succ n ih =>
    by_cases hc : tokens.length < MAX_TOKENS - 1
    · have hstep : nextToken (skipSpaces (List.replicate (n + 1) '|')) =
          some (⟨TOKEN_PIPE, ['|']⟩, List.replicate n '|') := by
        simp [List.replicate_succ, skipSpaces, isspace, nextToken, is_special_char]
      rw [tokenizeLoop_step _ _ _ _ (by simp [List.replicate_succ]) hc hstep, ih]
      have hmin : min (n + 1) (MAX_TOKENS - 1 - tokens.length) =
          min n (MAX_TOKENS - 1 - (tokens ++ [(⟨TOKEN_PIPE, ['|']⟩ : Token)]).length) + 1 := by
        simp only [List.length_append, List.length_singleton]
        omega
      rw [hmin, List.replicate_succ]
      simp
    · rw [tokenizeLoop_full _ _ hc]
      have hmin : min (n + 1) (MAX_TOKENS - 1 - tokens.length) = 0 := by omega
      rw [hmin]; simp

theorem parseLoop_pipes (k : Nat) (done : List t_command) (con : Console)
    (h : done.length + 1 + k ≤ MAX_TOKENS) :
    parseLoop (List.replicate k ⟨TOKEN_PIPE, ['|']⟩ ++ [⟨TOKEN_EOF, ['E', 'O', 'F']⟩])
        { done := done, cur := emptyCommand, con := con } =
      { done := done ++ List.replicate k emptyCommand, cur := emptyCommand, con := con } := by
  induction k generalizing done with
  | zero => simp [parseLoop]
  | succ k ih =>
    rw [List.replicate_succ, List.cons_append,
      parseLoop_separator ⟨TOKEN_PIPE, ['|']⟩ _ _ rfl (by simp only; omega)]
    simp only
    rw [ih (done ++ [emptyCommand])
      (by simp only [List.length_append, List.length_singleton]; omega)]
    simp [List.replicate_succ]

/-- A line of at least 127 pipe characters: 127 Pipe tokens are stored, `parse_input` opens
the 128 commands the array holds, and nothing is written to standard error. -/
theorem parse_input_pipes (n : Nat) (con : Console) :
    parse_input (tokenize (List.replicate (MAX_TOKENS - 1 + n) '|')) con =
      ({ commands := List.replicate (MAX_TOKENS - 1) emptyCommand ++ [emptyCommand] }, con) := by
  have hmin : min (MAX_TOKENS - 1 + n) (MAX_TOKENS - 1 - ([] : List Token).length) =
      MAX_TOKENS - 1 := by
    simp only [List.length_nil, MAX_TOKENS]; omega
  have ht : tokenize (List.replicate (MAX_TOKENS - 1 + n) '|') =
      List.replicate (MAX_TOKENS - 1) ⟨TOKEN_PIPE, ['|']⟩ ++
        [⟨TOKEN_EOF, ['E', 'O', 'F']⟩] := by
    rw [tokenize, tokenizeLoop_pipes (MAX_TOKENS - 1 + n) [], hmin]
    rfl
  rw [ht, parse_input, parseLoop_pipes (MAX_TOKENS - 1) [] con (by decide)]
  rfl

/-! ## Claims about the caps of a tokenized line -/

/-- C12, as the code behaves: for every input line, however many pipe- or
sequence-separated stages it contains, parsing its tokens yields at most `MAX_TOKENS` stages
and writes no too-many-commands diagnostic: the tokenizer stops after 127 tokens, so the
surplus is dropped silently before the command array can fill up. In particular a line of
127 or more pipe characters yields exactly `MAX_TOKENS` stages and leaves standard error
untouched. -/
theorem parse_input_line_never_too_many (input : List Char) (con : Console) (n : Nat) :
    (parse_input (tokenize input) con).1.cmd_count ≤ MAX_TOKENS ∧
    tooManyCount (parse_input (tokenize input) con).2 = tooManyCount con ∧
    (parse_input (tokenize (List.replicate (MAX_TOKENS - 1 + n) '|')) con).1.cmd_count =
      MAX_TOKENS ∧
    (parse_input (tokenize (List.replicate (MAX_TOKENS - 1 + n) '|')) con).2 = con := by
  refine ⟨?_, (parse_input_tokenize_slots input con).2, ?_, ?_⟩
  · have := parseLoop_done_length (tokenize input)
      { done := [], cur := emptyCommand, con := con } (by simp [MAX_TOKENS])
    simpa [parse_input, t_parsed_input.cmd_count] using this
  · rw [parse_input_pipes n con]
    simp only [t_parsed_input.cmd_count, List.length_append, List.length_replicate,
      List.length_singleton]
    rfl
  · rw [parse_input_pipes n con]

/-- Counterexample to C12 as stated: the line of 128 pipe characters contains 129
pipe-separated stages, more than `MAX_TOKENS`; parsing its tokens yields 128 stages but no
too-many-commands diagnostic: standard error stays empty. -/
theorem parse_input_too_many_counterexample :
    (List.replicate (MAX_TOKENS - 1 + 1) '|').length = 128 ∧
    (parse_input (tokenize (List.replicate (MAX_TOKENS - 1 + 1) '|')) ⟨[], [], []⟩).1.cmd_count
      = 128 ∧
    (parse_input (tokenize (List.replicate (MAX_TOKENS - 1 + 1) '|')) ⟨[], [], []⟩).2.stderr
      = [] := by
  rw [parse_input_pipes 1 ⟨[], [], []⟩]
  refine ⟨by rw [List.length_replicate]; rfl, ?_, rfl⟩
  simp only [t_parsed_input.cmd_count, List.length_append, List.length_replicate,
    List.length_singleton]
  rfl

/-- C19: for every input line, in `parse_input (tokenize line)` the sum of all stages'
`arg_count` plus `cmd_count - 1` is at most `MAX_TOKENS - 1`; hence every stage has
`arg_count` at most 127, so that every write into the `MAX_TOKENS`-slot array `args`,
the terminating null included, is in bounds, `cmd_count` is at most `MAX_TOKENS`, so that
every index into `commands` is below `MAX_TOKENS`, and no too-many-commands diagnostic is
written: that branch is never taken. -/
theorem parse_input_tokenize_in_bounds (input : List Char) (con : Console) :
    ((parse_input (tokenize input) con).1.commands.map t_command.arg_count).sum +
      ((parse_input (tokenize input) con).1.cmd_count - 1) ≤ MAX_TOKENS - 1 ∧
    (∀ c ∈ (parse_input (tokenize input) con).1.commands, c.arg_count ≤ MAX_TOKENS - 1) ∧
    (parse_input (tokenize input) con).1.cmd_count ≤ MAX_TOKENS ∧
    tooManyCount (parse_input (tokenize input) con).2 = tooManyCount con := by
  have h := parse_input_tokenize_slots input con
  have hs : ((parse_input (tokenize input) con).1.commands.map t_command.arg_count).sum +
      ((parse_input (tokenize input) con).1.cmd_count - 1) ≤ MAX_TOKENS - 1 := h.1
  refine ⟨hs, ?_, ?_, h.2⟩
  · intro c hc
    have := le_sum_of_mem _ _ (List.mem_map_of_mem t_command.arg_count hc)
    omega
  · have := parseLoop_done_length (tokenize input)
      { done := [], cur := emptyCommand, con := con } (by simp [MAX_TOKENS])
    simpa [parse_input, t_parsed_input.cmd_count] using this

/-! ## Arguments and background flag of a stage -/

theorem plainWords_ne_nil_iff (after : Bool) (seg : List Token) :
    plainWords after seg ≠ [] ↔
      ((∃ t post, seg = t :: post ∧ t.type = TOKEN_WORD ∧ after = false) ∨
       (∃ pre p t post, seg = pre ++ p :: t :: post ∧ t.type = TOKEN_WORD ∧
          isRedirect p.type = false)) := by
  induction seg generalizing after with
  | nil =>
    simp only [plainWords, ne_eq, not_true_eq_false, false_iff]
    rintro (⟨t, post, h, -⟩ | ⟨pre, p, t, post, h, -⟩)
    · cases h
    · cases pre <;> cases h
  | cons x xs ih =>
    constructor
    · intro h
      by_cases hx : x.type = TOKEN_WORD ∧ after = false
      · exact Or.inl ⟨x, xs, rfl, hx.1, hx.2⟩
      · have h2 : plainWords (isRedirect x.type) xs ≠ [] := by
          simpa [plainWords, hx] using h
        rcases (ih (isRedirect x.type)).1 h2 with ⟨t, post, hxs, ht, hr⟩ |
            ⟨pre, p, t, post, hxs, ht, hr⟩
        · exact Or.inr ⟨[], x, t, post, by rw [hxs]; rfl, ht, hr⟩
        · exact Or.inr ⟨x :: pre, p, t, post, by rw [hxs]; rfl, ht, hr⟩
    · rintro (⟨t, post, h, ht, ha⟩ | ⟨pre, p, t, post, h, ht, hr⟩)
      · cases h
        simp [plainWords, ht, ha]
      · have h2 : plainWords (isRedirect x.type) xs ≠ [] := by
          apply (ih (isRedirect x.type)).2
          cases pre with
          | nil =>
            simp only [List.nil_append, List.cons.injEq] at h
            obtain ⟨rfl, rfl⟩ := h
            exact Or.inl ⟨t, post, rfl, ht, hr⟩
          | cons y ys =>
            simp only [List.cons_append, List.cons.injEq] at h
            exact Or.inr ⟨ys, p, t, post, h.2, ht, hr⟩
        intro hnil
        simp only [plainWords, List.append_eq_nil] at hnil
        exact h2 hnil.2

theorem tokenize_in_f :
    tokenize "< f".toList =
      [⟨TOKEN_REDIRECT_IN, "<".toList⟩, ⟨TOKEN_WORD, "f".toList⟩,
       ⟨TOKEN_EOF, "EOF".toList⟩] := by
  rw [tokenize,
    tokenizeLoop_step "< f".toList [] ⟨TOKEN_REDIRECT_IN, "<".toList⟩
      " f".toList (by decide) (by decide) (by decide),
    tokenizeLoop_step _ _ ⟨TOKEN_WORD, "f".toList⟩
      [] (by decide) (by decide) (by decide),
    tokenizeLoop_nil]
  rfl

theorem tokenize_a_background_b :
    tokenize "a & b".toList =
      [⟨TOKEN_WORD, "a".toList⟩, ⟨TOKEN_BACKGROUND, "&".toList⟩, ⟨TOKEN_WORD, "b".toList⟩,
       ⟨TOKEN_EOF, "EOF".toList⟩] := by
  rw [tokenize,
    tokenizeLoop_step "a & b".toList [] ⟨TOKEN_WORD, "a".toList⟩
      " & b".toList (by decide) (by decide) (by decide),
    tokenizeLoop_step _ _ ⟨TOKEN_BACKGROUND, "&".toList⟩
      " b".toList (by decide) (by decide) (by decide),
    tokenizeLoop_step _ _ ⟨TOKEN_WORD, "b".toList⟩
      [] (by decide) (by decide) (by decide),
    tokenizeLoop_nil]
  rfl

/-- Counterexample to C14 as stated: the only stage of the line `< f` contains the Word
token `f`, yet its argument list is empty. -/
theorem parse_input_args_counterexample :
    segments (tokenize "< f".toList) =
      [[⟨TOKEN_REDIRECT_IN, "<".toList⟩, ⟨TOKEN_WORD, "f".toList⟩]] ∧
    (parse_input (tokenize "< f".toList) ⟨[], [], []⟩).1.commands.map t_command.args = [[]] ∧
    ¬ (∀ c ∈ (parse_input (tokenize "< f".toList) ⟨[], [], []⟩).1.commands,
        c.args ≠ [] ↔
          ∃ t ∈ [(⟨TOKEN_REDIRECT_IN, "<".toList⟩ : Token), ⟨TOKEN_WORD, "f".toList⟩],
            t.type = TOKEN_WORD) := by
  rw [tokenize_in_f]
  decide

/-- Counterexample to C15 as stated: in the line `cat < &` a Background token occurs among
the tokens of the only stage, yet the stage's background flag is not set: the `<` before
it, not being followed by a Word, consumes the `&`. -/
theorem parse_input_background_counterexample :
    segments (tokenize "cat < &".toList) =
      [[⟨TOKEN_WORD, "cat".toList⟩, ⟨TOKEN_REDIRECT_IN, "<".toList⟩,
        ⟨TOKEN_BACKGROUND, "&".toList⟩]] ∧
    (parse_input (tokenize "cat < &".toList) ⟨[], [], []⟩).1.commands.map
      t_command.run_in_background = [false] := by
  rw [tokenize_cat_in_background]
  decide

/-! ## The size limit of a here-document -/

theorem heredocLoop_line_overflow (d l buffer : List Char) (total : Nat) (con : Console)
    (rest : List Char) (hl : validLine l) (hne : l ≠ d)
    (hfit : ¬ total + l.length + 2 < MAX_HEREDOC_SIZE) (hin : con.stdin = l ++ '\n' :: rest) :
    heredocLoop d buffer total con =
      (buffer, { con with stdin := rest, stderr := con.stderr ++ [heredocWarning] }) := by
  have hf : fgets MAX_CMD_LEN con.stdin = some (l ++ ['\n'], rest) := by
    rw [hin]; exact fgets_line l rest hl
  have ht := lineText_line l hl.1
  exact heredocLoop_overflow d buffer total con _ _ hf (by rw [ht]; exact hne)
    (by rw [ht]; exact hfit)

theorem linesBefore_of_not_mem (d : List Char) (L : List (List Char)) (h : d ∉ L) :
    linesBefore d L = L := by
  induction L with
  | nil => rfl
  | cons l ls ih =>
    have hne : l ≠ d := fun e => h (by simp [e])
    simp [linesBefore, hne, ih (fun hm => h (by simp [hm]))]

/-- The loop of `read_heredoc` on a stream of lines: it appends whole lines that precede
the delimiter line, as long as they fit. -/
theorem heredocLoop_collect (d : List Char) (L : List (List Char)) (buffer : List Char)
    (total : Nat) (con : Console) (hvalid : ∀ l ∈ L, validLine l)
    (hin : con.stdin = streamOfLines L) (htot : total = buffer.length)
    (hbuf : buffer.length ≤ MAX_HEREDOC_SIZE - 2) :
    ∃ n, n ≤ (linesBefore d L).length ∧
      (heredocLoop d buffer total con).1 =
        buffer ++ streamOfLines ((linesBefore d L).take n) ∧
      (heredocLoop d buffer total con).1.length ≤ MAX_HEREDOC_SIZE - 2 ∧
      (n < (linesBefore d L).length →
        (∃ l, (linesBefore d L)[n]? = some l ∧
          MAX_HEREDOC_SIZE ≤
            buffer.length + (streamOfLines ((linesBefore d L).take n)).length + l.length + 2) ∧
        (heredocLoop d buffer total con).2.stderr = con.stderr ++ [heredocWarning]) ∧
      (n = (linesBefore d L).length →
        (heredocLoop d buffer total con).2.stderr = con.stderr) := by
  induction L generalizing buffer total con with
  | nil =>
    have hf : fgets MAX_CMD_LEN con.stdin = none := by rw [hin]; rfl
    rw [heredocLoop_none d buffer total con hf]
    exact ⟨0, by simp [linesBefore], by simp [linesBefore, streamOfLines], by simpa using hbuf,
      by simp [linesBefore], fun _ => rfl⟩
  | cons l ls ih =>
    have hl : validLine l := hvalid l (by simp)
    have hin2 : con.stdin = l ++ '\n' :: streamOfLines ls := by rw [hin]; rfl
    by_cases hd : l = d
    · rw [heredocLoop_delimiter d buffer total con (streamOfLines ls) (hd ▸ hl)
        (by rw [hin2, hd])]
      exact ⟨0, by simp [linesBefore, hd], by simp [linesBefore, hd, streamOfLines],
        by simpa using hbuf, by simp [linesBefore, hd], fun _ => rfl⟩
    · by_cases hfit : total + l.length + 2 < MAX_HEREDOC_SIZE
      · rw [heredocLoop_line d l buffer total con (streamOfLines ls) hl hd hfit hin2]
        have hlen : (buffer ++ l ++ ['\n']).length = buffer.length + l.length + 1 := by
          simp only [List.length_append, List.length_singleton]
        obtain ⟨n, hn, hres, hle, hover, hdone⟩ := ih (buffer ++ l ++ ['\n'])
          (total + (l.length + 1))
          { con with stdin := streamOfLines ls, stdout := con.stdout ++ ["heredoc> "] }
          (fun m hm => hvalid m (by simp [hm])) rfl (by rw [hlen, htot]; omega)
          (by rw [hlen]; simp only [MAX_HEREDOC_SIZE] at hfit ⊢; omega)
        refine ⟨n + 1, by simp [linesBefore, hd]; exact hn, ?_, hle, ?_, ?_⟩
        · rw [hres]; simp [linesBefore, hd, streamOfLines]
        · intro hlt
          have hlt2 : n < (linesBefore d ls).length := by
            simpa [linesBefore, hd] using hlt
          obtain ⟨⟨m, hm, hsize⟩, herr⟩ := hover hlt2
          refine ⟨⟨m, by simpa [linesBefore, hd] using hm, ?_⟩, herr⟩
          rw [hlen] at hsize
          simp only [linesBefore, hd, if_false, List.take_succ_cons, streamOfLines,
            List.length_append, List.length_cons]
          omega
        · intro heq
          exact hdone (by simpa [linesBefore, hd] using heq)
      · rw [heredocLoop_line_overflow d l buffer total con (streamOfLines ls) hl hd hfit hin2]
        refine ⟨0, by simp, by simp [streamOfLines], by simpa using hbuf, ?_, ?_⟩
        · intro _
          refine ⟨⟨l, by simp [linesBefore, hd], ?_⟩, rfl⟩
          simp only [List.take_zero, streamOfLines, List.length_nil]
          omega
        · intro h0
          simp [linesBefore, hd] at h0

/-! ## Claims about the size limit of a here-document -/

/-- C16, as the code behaves: standard input holds the lines `L` (each without a newline or
NUL byte inside and shorter than `MAX_CMD_LEN - 1` bytes, each followed by a newline), with
or without a line equal to the
delimiter. The text `read_heredoc` returns is at most `MAX_HEREDOC_SIZE - 2` bytes long and
is the concatenation, each followed by a newline, of the first `n` of the lines that
precede the first delimiter line (all lines when there is none). When `n` falls short of
all of those lines, appending the next line would reach the size limit and the
size-exceeded diagnostic is written; otherwise nothing is written to standard error. -/
theorem read_heredoc_bounded (d : List Char) (L : List (List Char)) (con : Console)
    (hvalid : ∀ l ∈ L, validLine l) (hin : con.stdin = streamOfLines L) :
    (d ∉ L → linesBefore d L = L) ∧
    ∃ n, n ≤ (linesBefore d L).length ∧
      (read_heredoc d con).1 = streamOfLines ((linesBefore d L).take n) ∧
      (read_heredoc d con).1.length ≤ MAX_HEREDOC_SIZE - 2 ∧
      (n < (linesBefore d L).length →
        (∃ l, (linesBefore d L)[n]? = some l ∧
          MAX_HEREDOC_SIZE ≤
            (streamOfLines ((linesBefore d L).take n)).length + l.length + 2) ∧
        (read_heredoc d con).2.stderr = con.stderr ++ [heredocWarning]) ∧
      (n = (linesBefore d L).length → (read_heredoc d con).2.stderr = con.stderr) := by
  refine ⟨linesBefore_of_not_mem d L, ?_⟩
  obtain ⟨n, hn, hres, hle, hover, hdone⟩ := heredocLoop_collect d L [] 0
    { con with stdout := con.stdout ++ ["heredoc> "] } hvalid hin rfl (by simp)
  refine ⟨n, hn, by simpa [read_heredoc] using hres, hle, ?_, hdone⟩
  intro hlt
  obtain ⟨⟨m, hm, hsize⟩, herr⟩ := hover hlt
  exact ⟨⟨m, hm, by simpa using hsize⟩, herr⟩

/-- Witness for the amended C16: delimiter `EOF` and the lines `one`, `two`, `EOF`, `ignored`. -/
theorem read_heredoc_bounded_witness :
    (['E', 'O', 'F'] ∉ [['o', 'n', 'e'], ['t', 'w', 'o'], ['E', 'O', 'F'],
        ['i', 'g', 'n', 'o', 'r', 'e', 'd']] →
      linesBefore ['E', 'O', 'F'] [['o', 'n', 'e'], ['t', 'w', 'o'], ['E', 'O', 'F'],
        ['i', 'g', 'n', 'o', 'r', 'e', 'd']] =
        [['o', 'n', 'e'], ['t', 'w', 'o'], ['E', 'O', 'F'],
          ['i', 'g', 'n', 'o', 'r', 'e', 'd']]) ∧
    ∃ n, n ≤ (linesBefore ['E', 'O', 'F'] [['o', 'n', 'e'], ['t', 'w', 'o'], ['E', 'O', 'F'],
        ['i', 'g', 'n', 'o', 'r', 'e', 'd']]).length ∧
      (read_heredoc ['E', 'O', 'F'] ⟨streamOfLines [['o', 'n', 'e'], ['t', 'w', 'o'],
        ['E', 'O', 'F'], ['i', 'g', 'n', 'o', 'r', 'e', 'd']], [], []⟩).1 =
        streamOfLines ((linesBefore ['E', 'O', 'F'] [['o', 'n', 'e'], ['t', 'w', 'o'],
          ['E', 'O', 'F'], ['i', 'g', 'n', 'o', 'r', 'e', 'd']]).take n) ∧
      (read_heredoc ['E', 'O', 'F'] ⟨streamOfLines [['o', 'n', 'e'], ['t', 'w', 'o'],
        ['E', 'O', 'F'], ['i', 'g', 'n', 'o', 'r', 'e', 'd']], [], []⟩).1.length ≤
        MAX_HEREDOC_SIZE - 2 ∧
      (n < (linesBefore ['E', 'O', 'F'] [['o', 'n', 'e'], ['t', 'w', 'o'], ['E', 'O', 'F'],
          ['i', 'g', 'n', 'o', 'r', 'e', 'd']]).length →
        (∃ l, (linesBefore ['E', 'O', 'F'] [['o', 'n', 'e'], ['t', 'w', 'o'],
            ['E', 'O', 'F'], ['i', 'g', 'n', 'o', 'r', 'e', 'd']])[n]? = some l ∧
          MAX_HEREDOC_SIZE ≤
            (streamOfLines ((linesBefore ['E', 'O', 'F'] [['o', 'n', 'e'], ['t', 'w', 'o'],
              ['E', 'O', 'F'], ['i', 'g', 'n', 'o', 'r', 'e', 'd']]).take n)).length +
              l.length + 2) ∧
        (read_heredoc ['E', 'O', 'F'] ⟨streamOfLines [['o', 'n', 'e'], ['t', 'w', 'o'],
          ['E', 'O', 'F'], ['i', 'g', 'n', 'o', 'r', 'e', 'd']], [], []⟩).2.stderr =
          [] ++ [heredocWarning]) ∧
      (n = (linesBefore ['E', 'O', 'F'] [['o', 'n', 'e'], ['t', 'w', 'o'], ['E', 'O', 'F'],
          ['i', 'g', 'n', 'o', 'r', 'e', 'd']]).length →
        (read_heredoc ['E', 'O', 'F'] ⟨streamOfLines [['o', 'n', 'e'], ['t', 'w', 'o'],
          ['E', 'O', 'F'], ['i', 'g', 'n', 'o', 'r', 'e', 'd']], [], []⟩).2.stderr = []) :=
  read_heredoc_bounded ['E', 'O', 'F']
    [['o', 'n', 'e'], ['t', 'w', 'o'], ['E', 'O', 'F'], ['i', 'g', 'n', 'o', 'r', 'e', 'd']]
    ⟨streamOfLines [['o', 'n', 'e'], ['t', 'w', 'o'], ['E', 'O', 'F'],
      ['i', 'g', 'n', 'o', 'r', 'e', 'd']], [], []⟩
    (by decide) rfl

/-! ## Quoted words -/

theorem scanQuoted_append (q : Char) (s rest v : List Char) (hs : ∀ c ∈ s, c ≠ q)
    (hlen : v.length + s.length ≤ MAX_TOKEN_LEN - 1) :
    scanQuoted q (s ++ rest) v = scanQuoted q rest (v ++ s) := by
  induction s generalizing v with
  | nil => simp
  | cons c cs ih =>
    have hc : c ≠ q := hs c (by simp)
    simp only [List.length_cons] at hlen
    have hv : v.length < MAX_TOKEN_LEN - 1 := by omega
    simp only [List.cons_append, scanQuoted, hc, hv, ne_eq, not_false_eq_true, and_self,
      if_true, List.append_eq]
    rw [ih (v ++ [c]) (fun d hd => hs d (by simp [hd]))
      (by simp only [List.length_append, List.length_singleton]; omega)]
    simp

theorem scanQuoted_quote (q : Char) (rest v : List Char) :
    scanQuoted q (q :: rest) v = (v, q :: rest) := by
  simp [scanQuoted]

/-- A quote character, a text without that quote character that fits the cap, and then
either the closing quote or the end of the input: one Word token holding the text. -/
theorem nextToken_quoted (q : Char) (s : List Char) (hq : q = '"' ∨ q = '\'')
    (hs : ∀ c ∈ s, c ≠ q) (hlen : s.length ≤ MAX_TOKEN_LEN - 1) :
    nextToken (skipSpaces (q :: (s ++ [q]))) = some (⟨TOKEN_WORD, s⟩, []) ∧
    nextToken (skipSpaces (q :: s)) = some (⟨TOKEN_WORD, s⟩, []) := by
  have hsp : isspace q = false := by rcases hq with h | h <;> rw [h] <;> decide
  have hop : is_special_char q = false := by rcases hq with h | h <;> rw [h] <;> decide
  have h1 : scanQuoted q (s ++ [q]) [] = (s, [q]) := by
    rw [scanQuoted_append q s [q] [] hs (by simpa using hlen), scanQuoted_quote]
    rfl
  have h2 : scanQuoted q s [] = (s, []) := by
    have := scanQuoted_append q s [] [] hs (by simpa using hlen)
    rw [List.append_nil] at this
    rw [this]; rfl
  constructor
  · rw [skipSpaces_of_not_space q _ hsp]
    simp only [nextToken, hop, hq, Bool.false_eq_true, if_false, if_true, h1]
    rfl
  · rw [skipSpaces_of_not_space q _ hsp]
    simp only [nextToken, hop, hq, Bool.false_eq_true, if_false, if_true, h2]
    rfl

/-! ## Claims about quoted words -/

/-- C17: for each quote character `q` (single or double) and every text `s` of at most 255
bytes that does not contain `q` (it may contain whitespace, operator characters and the
other quote character), both the terminated form `q s q` and the unterminated form `q s`
are tokenized to exactly `[Word s, EndOfInput]`; the two quote styles behave alike. -/
theorem tokenize_quoted (q : Char) (s : List Char) (hq : q = '"' ∨ q = '\'')
    (hs : ∀ c ∈ s, c ≠ q) (hlen : s.length ≤ MAX_TOKEN_LEN - 1) :
    tokenize ([q] ++ s ++ [q]) = [⟨TOKEN_WORD, s⟩, ⟨TOKEN_EOF, ['E', 'O', 'F']⟩] ∧
    tokenize ([q] ++ s) = [⟨TOKEN_WORD, s⟩, ⟨TOKEN_EOF, ['E', 'O', 'F']⟩] := by
  obtain ⟨h1, h2⟩ := nextToken_quoted q s hq hs hlen
  constructor
  · rw [tokenize, List.append_assoc, List.singleton_append,
      tokenizeLoop_step _ [] _ _ (by simp) (by simp [MAX_TOKENS]) h1, tokenizeLoop_nil]
    rfl
  · rw [tokenize, List.singleton_append,
      tokenizeLoop_step _ [] _ _ (by simp) (by simp [MAX_TOKENS]) h2, tokenizeLoop_nil]
    rfl

/-- Witness for C17: the double-quoted text `a |'b`, with operator, space and the other
quote inside. -/
theorem tokenize_quoted_witness :
    tokenize (['"'] ++ ['a', ' ', '|', '\'', 'b'] ++ ['"']) =
      [⟨TOKEN_WORD, ['a', ' ', '|', '\'', 'b']⟩, ⟨TOKEN_EOF, ['E', 'O', 'F']⟩] ∧
    tokenize (['"'] ++ ['a', ' ', '|', '\'', 'b']) =
      [⟨TOKEN_WORD, ['a', ' ', '|', '\'', 'b']⟩, ⟨TOKEN_EOF, ['E', 'O', 'F']⟩] :=
  tokenize_quoted '"' ['a', ' ', '|', '\'', 'b'] (Or.inl rfl) (by decide) (by decide)

/-! ## Tokenization loses no byte of a quote-free line -/

theorem concatValues_append (a b : List Token) :
    concatValues (a ++ b) = concatValues a ++ concatValues b := by
  induction a with
  | nil => rfl
  | cons t ts ih => simp [concatValues, ih]

theorem withoutSpaces_skipSpaces (r : List Char) :
    withoutSpaces (skipSpaces r) = withoutSpaces r := by
  induction r with
  | nil => rfl
  | cons c cs ih =>
    by_cases h : isspace c = true
    · simp [skipSpaces, h, withoutSpaces] at ih ⊢; exact ih
    · simp [skipSpaces, h]

theorem mem_skipSpaces (r : List Char) (c : Char) (h : c ∈ skipSpaces r) : c ∈ r := by
  induction r with
  | nil => simp [skipSpaces] at h
  | cons d ds ih =>
    simp only [skipSpaces] at h
    split at h
    · exact List.mem_cons_of_mem _ (ih h)
    · exact h

theorem withoutSpaces_append_of_no_space (w rest : List Char)
    (h : ∀ c ∈ w, isspace c = false) :
    withoutSpaces (w ++ rest) = w ++ withoutSpaces rest := by
  simp only [withoutSpaces, List.filter_append]
  congr 1
  rw [List.filter_eq_self]
  intro c hc
  simp [h c hc]

/-- The bare-word loop copies a run of bytes that are neither whitespace nor operator
characters and leaves the rest of the input. -/
theorem scanBare_spec (s v : List Char) :
    ∃ w, (scanBare s v).1 = v ++ w ∧ s = w ++ (scanBare s v).2 ∧
      ∀ c ∈ w, isspace c = false ∧ is_special_char c = false := by
  induction s generalizing v with
  | nil => exact ⟨[], by simp [scanBare], by simp [scanBare], by simp⟩
  | cons c cs ih =>
    simp only [scanBare]
    split
    · rename_i h
      simp only [Bool.and_eq_true, Bool.not_eq_true', decide_eq_true_eq] at h
      obtain ⟨w, h1, h2, h3⟩ := ih (v ++ [c])
      refine ⟨c :: w, by rw [h1]; simp, by rw [List.cons_append, ← h2], ?_⟩
      intro d hd
      rcases List.mem_cons.1 hd with hd | hd
      · rw [hd]; exact ⟨h.1.1, h.1.2⟩
      · exact h3 d hd
    · exact ⟨[], by simp, by simp, by simp⟩

/-- One pass of the loop body on quote-free input that starts with a byte that is not
whitespace: the text of the token stored is exactly the input consumed. -/
theorem nextToken_consumes (s : List Char) (tok : Token) (rest : List Char)
    (hq : ∀ c ∈ s, c ≠ '"' ∧ c ≠ '\'') (hhead : ∀ c cs, s = c :: cs → isspace c = false)
    (h : nextToken s = some (tok, rest)) :
    s = tok.value ++ rest ∧ (∀ c ∈ tok.value, isspace c = false) ∧ cleanWord tok := by
  cases s with
  | nil => simp [nextToken] at h
  | cons c cs =>
    have hsp : isspace c = false := hhead c cs rfl
    have hcq := hq c (by simp)
    simp only [nextToken] at h
    split at h
    · rename_i hspec
      split at h
      · rename_i hc; cases h
        exact ⟨by simp [hc], by simp [isspace], by simp [cleanWord]⟩
      · split at h
        · rename_i hc
          split at h
          · cases h
            exact ⟨by simp [hc], by simp [isspace], by simp [cleanWord]⟩
          · cases h
            exact ⟨by simp [hc], by simp [isspace], by simp [cleanWord]⟩
        · split at h
          · rename_i hc
            split at h
            · cases h
              exact ⟨by simp [hc], by simp [isspace], by simp [cleanWord]⟩
            · cases h
              exact ⟨by simp [hc], by simp [isspace], by simp [cleanWord]⟩
          · split at h
            · rename_i hc; cases h
              exact ⟨by simp [hc], by simp [isspace], by simp [cleanWord]⟩
            · rename_i h1 h2 h3 h4
              cases h
              have hc : c = ';' := by
                simp only [is_special_char, Bool.or_eq_true, beq_iff_eq] at hspec
                rcases hspec with (((hh | hh) | hh) | hh) | hh
                · exact absurd hh h1
                · exact absurd hh h2
                · exact absurd hh h3
                · exact absurd hh h4
                · exact hh
              exact ⟨by simp [hc], by simp [isspace], by simp [cleanWord]⟩
    · rename_i hspec
      split at h
      · rename_i hquote
        rcases hquote with hh | hh
        · exact absurd hh hcq.1
        · exact absurd hh hcq.2
      · cases h
        have hspec2 : is_special_char c = false := by simpa using hspec
        obtain ⟨w, h1, h2, h3⟩ := scanBare_spec cs [c]
        have hunf : scanBare (c :: cs) [] = scanBare cs [c] := by
          simp [scanBare, hsp, hspec2, MAX_TOKEN_LEN]
        simp only [hunf]
        refine ⟨by rw [h1]; simp; exact h2, ?_, ?_⟩
        · intro d hd
          rw [h1] at hd
          rcases List.mem_append.1 hd with hd | hd
          · rw [List.mem_singleton.1 hd]; exact hsp
          · exact (h3 d hd).1
        · intro _
          refine ⟨by rw [h1]; simp, ?_⟩
          intro d hd
          rw [h1] at hd
          rcases List.mem_append.1 hd with hd | hd
          · rw [List.mem_singleton.1 hd]; exact ⟨hsp, hspec2⟩
          · exact h3 d hd

theorem nextToken_none (s : List Char) (h : nextToken s = none) : s = [] := by
  cases s with
  | nil => rfl
  | cons c cs =>
    have : (nextToken (c :: cs)).isSome = true := by
      simp only [nextToken]
      repeat' split
      all_goals rfl
    rw [h] at this
    cases this

/-- The loop of `tokenize` on quote-free input, when it is left with room for more tokens:
the texts of the tokens spell the input without its whitespace, and every new Word is
non-empty and free of whitespace and operator characters. -/
theorem tokenizeLoop_lossless (rest : List Char) (tokens : List Token)
    (hq : ∀ c ∈ rest, c ≠ '"' ∧ c ≠ '\'')
    (hcap : (tokenizeLoop rest tokens).length < MAX_TOKENS - 1)
    (hclean : ∀ t ∈ tokens, cleanWord t) :
    concatValues (tokenizeLoop rest tokens) = concatValues tokens ++ withoutSpaces rest ∧
    ∀ t ∈ tokenizeLoop rest tokens, cleanWord t := by
  induction rest, tokens using tokenizeLoop.induct with
  | case1 rest tokens _ h =>
    rw [tokenizeLoop_break _ _ h]
    have hnil := nextToken_none _ h
    have : withoutSpaces rest = [] := by
      rw [← withoutSpaces_skipSpaces, hnil]; rfl
    rw [this]
    exact ⟨by simp, hclean⟩
  | case2 rest tokens hc tok rest2 h ih =>
    rw [tokenizeLoop_step _ _ _ _ hc.1 hc.2 h] at hcap ⊢
    have hqs : ∀ c ∈ skipSpaces rest, c ≠ '"' ∧ c ≠ '\'' :=
      fun c hcm => hq c (mem_skipSpaces rest c hcm)
    obtain ⟨hsplit, hns, hcw⟩ := nextToken_consumes (skipSpaces rest) tok rest2 hqs
      (fun c cs hs => skipSpaces_head hs) h
    have hq2 : ∀ c ∈ rest2, c ≠ '"' ∧ c ≠ '\'' := by
      intro c hcm
      apply hqs
      rw [hsplit]
      exact List.mem_append_right _ hcm
    have hclean2 : ∀ t ∈ tokens ++ [tok], cleanWord t := by
      intro t ht
      rcases List.mem_append.1 ht with ht | ht
      · exact hclean t ht
      · rw [List.mem_singleton.1 ht]; exact hcw
    obtain ⟨h1, h2⟩ := ih hq2 hcap hclean2
    refine ⟨?_, h2⟩
    rw [h1, concatValues_append, ← withoutSpaces_skipSpaces rest]
    conv_rhs => rw [hsplit]
    rw [withoutSpaces_append_of_no_space _ _ hns]
    simp [concatValues]
  | case3 rest tokens hc =>
    have heq : tokenizeLoop rest tokens = tokens := by rw [tokenizeLoop]; simp [hc]
    rw [heq] at hcap ⊢
    have hnil : rest = [] := by
      by_contra hne
      exact hc ⟨hne, hcap⟩
    rw [hnil]
    exact ⟨by simp [withoutSpaces], hclean⟩

/-! ## Claims about lossless tokenization -/

/-- C20: for every input without a quote character for which `tokenize` returns fewer than
`MAX_TOKENS - 1` tokens before the end marker, the texts of all tokens except the final
end marker, concatenated in order, are exactly the input with every whitespace character
removed; every Word token is non-empty and holds no whitespace or operator character. No
byte is lost, so an over-long word is spread over consecutive Word tokens. -/
theorem tokenize_lossless (input : List Char) (hq : ∀ c ∈ input, c ≠ '"' ∧ c ≠ '\'')
    (hcap : (tokenize input).dropLast.length < MAX_TOKENS - 1) :
    concatValues (tokenize input).dropLast = withoutSpaces input ∧
    ∀ t ∈ tokenize input, t.type = TOKEN_WORD →
      t.value ≠ [] ∧ ∀ c ∈ t.value, isspace c = false ∧ is_special_char c = false := by
  have hdrop : (tokenize input).dropLast = tokenizeLoop input [] := by
    simp [tokenize, List.dropLast_concat]
  rw [hdrop] at hcap ⊢
  obtain ⟨h1, h2⟩ := tokenizeLoop_lossless input [] hq hcap (by simp)
  refine ⟨by simpa [concatValues] using h1, ?_⟩
  intro t ht hw
  simp only [tokenize, List.mem_append, List.mem_singleton] at ht
  rcases ht with ht | ht
  · exact h2 t ht hw
  · rw [ht] at hw; cases hw

/-- Witness for C20: the line `cat < in.txt | grep x`. -/
theorem tokenize_lossless_witness :
    concatValues (tokenize "cat < in.txt | grep x".toList).dropLast =
      withoutSpaces "cat < in.txt | grep x".toList ∧
    ∀ t ∈ tokenize "cat < in.txt | grep x".toList, t.type = TOKEN_WORD →
      t.value ≠ [] ∧ ∀ c ∈ t.value, isspace c = false ∧ is_special_char c = false :=
  tokenize_lossless "cat < in.txt | grep x".toList (by decide)
    (by rw [tokenize_cat_grep]; decide)

/-! ## Lines that hold a NUL byte -/

/-- The lines `ab\0cd`, `EOF`, `rest` on standard input, delimiter `EOF`: the line read
first ends, as a C string, at its NUL byte, so only `ab` and a newline are collected. -/
theorem read_heredoc_nul_line :
    read_heredoc ['E', 'O', 'F']
      ⟨streamOfLines [['a', 'b', '\x00', 'c', 'd'], ['E', 'O', 'F'], ['r', 'e', 's', 't']],
        [], []⟩ =
      (['a', 'b', '\n'], ⟨['r', 'e', 's', 't', '\n'], ["heredoc> ", "heredoc> "], []⟩) := by
  have h0 : read_heredoc ['E', 'O', 'F']
      ⟨streamOfLines [['a', 'b', '\x00', 'c', 'd'], ['E', 'O', 'F'], ['r', 'e', 's', 't']],
        [], []⟩ =
      heredocLoop ['E', 'O', 'F'] [] 0
        ⟨['a', 'b', '\x00', 'c', 'd', '\n', 'E', 'O', 'F', '\n', 'r', 'e', 's', 't', '\n'],
          ["heredoc> "], []⟩ := rfl
  have h1 : heredocLoop ['E', 'O', 'F'] [] 0
        ⟨['a', 'b', '\x00', 'c', 'd', '\n', 'E', 'O', 'F', '\n', 'r', 'e', 's', 't', '\n'],
          ["heredoc> "], []⟩ =
      heredocLoop ['E', 'O', 'F'] ['a', 'b', '\n'] 3
        ⟨['E', 'O', 'F', '\n', 'r', 'e', 's', 't', '\n'], ["heredoc> ", "heredoc> "], []⟩ :=
    heredocLoop_append ['E', 'O', 'F'] [] 0 _ ['a', 'b', '\x00', 'c', 'd', '\n']
      ['E', 'O', 'F', '\n', 'r', 'e', 's', 't', '\n'] (by decide) (by decide) (by decide)
  have h2 : heredocLoop ['E', 'O', 'F'] ['a', 'b', '\n'] 3
        ⟨['E', 'O', 'F', '\n', 'r', 'e', 's', 't', '\n'], ["heredoc> ", "heredoc> "], []⟩ =
      (['a', 'b', '\n'], ⟨['r', 'e', 's', 't', '\n'], ["heredoc> ", "heredoc> "], []⟩) :=
    heredocLoop_match ['E', 'O', 'F'] ['a', 'b', '\n'] 3 _ ['E', 'O', 'F', '\n']
      ['r', 'e', 's', 't', '\n'] (by decide) (by decide)
  rw [h0, h1, h2]

/-- The single line `ab\0cd` on standard input and no delimiter line: `ab` and a newline
are collected, then the stream is at its end. -/
theorem read_heredoc_nul_only :
    read_heredoc ['E', 'O', 'F'] ⟨streamOfLines [['a', 'b', '\x00', 'c', 'd']], [], []⟩ =
      (['a', 'b', '\n'], ⟨[], ["heredoc> ", "heredoc> "], []⟩) := by
  have h0 : read_heredoc ['E', 'O', 'F']
      ⟨streamOfLines [['a', 'b', '\x00', 'c', 'd']], [], []⟩ =
      heredocLoop ['E', 'O', 'F'] [] 0
        ⟨['a', 'b', '\x00', 'c', 'd', '\n'], ["heredoc> "], []⟩ := rfl
  have h1 : heredocLoop ['E', 'O', 'F'] [] 0
        ⟨['a', 'b', '\x00', 'c', 'd', '\n'], ["heredoc> "], []⟩ =
      heredocLoop ['E', 'O', 'F'] ['a', 'b', '\n'] 3
        ⟨[], ["heredoc> ", "heredoc> "], []⟩ :=
    heredocLoop_append ['E', 'O', 'F'] [] 0 _ ['a', 'b', '\x00', 'c', 'd', '\n']
      [] (by decide) (by decide) (by decide)
  have h2 : heredocLoop ['E', 'O', 'F'] ['a', 'b', '\n'] 3
        ⟨[], ["heredoc> ", "heredoc> "], []⟩ =
      (['a', 'b', '\n'], ⟨[], ["heredoc> ", "heredoc> "], []⟩) :=
    heredocLoop_none ['E', 'O', 'F'] ['a', 'b', '\n'] 3 _ (by decide)
  rw [h0, h1, h2]

/-- Counterexample to C7 as stated: standard input holds the lines `ab\0cd`, `EOF`, `rest`,
each shorter than `MAX_CMD_LEN - 1` bytes; the delimiter `EOF` first occurs at index 1 and
the line before it takes 6 bytes. `read_heredoc` returns `ab` and a newline, not the whole
first line followed by a newline: the line is a C string and ends at its NUL byte. -/
theorem read_heredoc_delimiter_counterexample :
    (∀ l ∈ [['a', 'b', '\x00', 'c', 'd'], ['E', 'O', 'F'], ['r', 'e', 's', 't']],
      (∀ c ∈ l, c ≠ '\n') ∧ l.length < MAX_CMD_LEN - 1) ∧
    [['a', 'b', '\x00', 'c', 'd'], ['E', 'O', 'F'], ['r', 'e', 's', 't']][1]? =
      some ['E', 'O', 'F'] ∧
    (∀ l ∈ [['a', 'b', '\x00', 'c', 'd'], ['E', 'O', 'F'], ['r', 'e', 's', 't']].take 1,
      l ≠ ['E', 'O', 'F']) ∧
    (streamOfLines ([['a', 'b', '\x00', 'c', 'd'], ['E', 'O', 'F'],
      ['r', 'e', 's', 't']].take 1)).length < MAX_HEREDOC_SIZE - 1 ∧
    (read_heredoc ['E', 'O', 'F']
      ⟨streamOfLines [['a', 'b', '\x00', 'c', 'd'], ['E', 'O', 'F'], ['r', 'e', 's', 't']],
        [], []⟩).1 = ['a', 'b', '\n'] ∧
    (read_heredoc ['E', 'O', 'F']
      ⟨streamOfLines [['a', 'b', '\x00', 'c', 'd'], ['E', 'O', 'F'], ['r', 'e', 's', 't']],
        [], []⟩).1 ≠
      streamOfLines ([['a', 'b', '\x00', 'c', 'd'], ['E', 'O', 'F'],
        ['r', 'e', 's', 't']].take 1) := by
  rw [read_heredoc_nul_line]
  decide

/-- Counterexample to C16 as stated: standard input holds the single line `ab\0cd`, shorter
than `MAX_CMD_LEN - 1` bytes, and no delimiter line. The text `read_heredoc` returns, `ab`
and a newline, is not the concatenation of a prefix of the lines, each followed by a
newline: the line is cut at its NUL byte. -/
theorem read_heredoc_prefix_counterexample :
    (∀ l ∈ [['a', 'b', '\x00', 'c', 'd']],
      (∀ c ∈ l, c ≠ '\n') ∧ l.length < MAX_CMD_LEN - 1) ∧
    linesBefore ['E', 'O', 'F'] [['a', 'b', '\x00', 'c', 'd']] =
      [['a', 'b', '\x00', 'c', 'd']] ∧
    (read_heredoc ['E', 'O', 'F']
      ⟨streamOfLines [['a', 'b', '\x00', 'c', 'd']], [], []⟩).1 = ['a', 'b', '\n'] ∧
    ¬ ∃ n, (read_heredoc ['E', 'O', 'F']
        ⟨streamOfLines [['a', 'b', '\x00', 'c', 'd']], [], []⟩).1 =
      streamOfLines ((linesBefore ['E', 'O', 'F'] [['a', 'b', '\x00', 'c', 'd']]).take n) := by
  rw [read_heredoc_nul_only]
  refine ⟨by decide, by decide, rfl, ?_⟩
  rintro ⟨n, hn⟩
  cases n with
  | zero => exact absurd hn (by decide)
  | succ n =>
    have hl : linesBefore ['E', 'O', 'F'] [['a', 'b', '\x00', 'c', 'd']] =
        [['a', 'b', '\x00', 'c', 'd']] := by decide
    rw [hl] at hn
    simp only [List.take_succ_cons, List.take_nil] at hn
    exact absurd hn (by decide)

/-! ## The checked loop agrees with the loop -/

/-- Where the checked loop returns a state, it is the state the loop of `parse_input`
reaches. -/
theorem parseLoopChecked_cases (toks : List Token) (st : ParseState) :
    parseLoopChecked toks st = none ∨ parseLoopChecked toks st = some (parseLoop toks st) := by
  generalize hn : toks.length = n
  induction n using Nat.strong_induction_on generalizing toks st with
  | _ n ih =>
    match toks, hn with
    | [], _ => exact Or.inr (by simp [parseLoop, parseLoopChecked])
    | [t], hn =>
      have ih0 : ∀ st2, parseLoopChecked [] st2 = none ∨
          parseLoopChecked [] st2 = some (parseLoop [] st2) :=
        fun st2 => Or.inr (by simp [parseLoop, parseLoopChecked])
      cases ht : t.type <;> simp only [parseLoop, parseLoopChecked, ht] <;>
        first
        | exact Or.inr rfl
        | exact Or.inr trivial
        | exact ih0 _
        | (split
           · exact ih0 _
           · first | exact Or.inl rfl | exact ih0 _)
    | t :: m :: ts2, hn =>
      simp only [List.length_cons] at hn
      have ih1 : ∀ st2, parseLoopChecked (m :: ts2) st2 = none ∨
          parseLoopChecked (m :: ts2) st2 = some (parseLoop (m :: ts2) st2) :=
        fun st2 => ih (ts2.length + 1) (by omega) (m :: ts2) st2 rfl
      have ih2 : ∀ st2, parseLoopChecked ts2 st2 = none ∨
          parseLoopChecked ts2 st2 = some (parseLoop ts2 st2) :=
        fun st2 => ih ts2.length (by omega) ts2 st2 rfl
      cases ht : t.type <;> simp only [parseLoop, parseLoopChecked, ht] <;>
        first
        | exact Or.inr rfl
        | exact Or.inr trivial
        | exact ih1 _
        | (split
           · first | exact ih1 _ | exact ih2 _
           · first | exact Or.inl rfl | exact ih1 _ | exact ih2 _)

theorem parseLoopChecked_some (toks : List Token) (st st2 : ParseState)
    (h : parseLoopChecked toks st = some st2) : st2 = parseLoop toks st := by
  rcases parseLoopChecked_cases toks st with h2 | h2
  · rw [h2] at h; cases h
  · rw [h2] at h; exact (Option.some.inj h).symm

/-- A result of the checked `parse_input` is the result of `parse_input`, and every command
in it has its arguments and the terminating null pointer inside `args`. -/
theorem parse_input_checked_some (toks : List Token) (con : Console)
    (r : t_parsed_input × Console) (h : parse_input_checked toks con = some r) :
    r = parse_input toks con ∧ ∀ c ∈ r.1.commands, c.arg_count < MAX_TOKENS := by
  simp only [parse_input_checked] at h
  split at h
  · cases h
  · rename_i st hst
    have hst2 := parseLoopChecked_some toks _ st hst
    split at h
    · rename_i hb
      cases h
      refine ⟨by rw [hst2]; rfl, ?_⟩
      intro c hc
      simp only [terminatorsInBounds, List.all_eq_true, decide_eq_true_eq] at hb
      exact hb c hc
    · cases h

theorem addWord_arg_count (c : t_command) (v : List Char) :
    (addWord c v).arg_count = c.arg_count + 1 := by
  simp only [t_command.arg_count, addWord_args_length]

/-- While the arguments of the current command and the Words still to come fit into
`args`, the checked loop returns the state the loop of `parse_input` reaches. -/
theorem parseLoopChecked_of_words (toks : List Token) (st : ParseState)
    (h : st.cur.arg_count + toks.countP (fun t => decide (t.type = TOKEN_WORD)) ≤
      MAX_TOKENS) :
    parseLoopChecked toks st = some (parseLoop toks st) := by
  generalize hn : toks.length = n
  induction n using Nat.strong_induction_on generalizing toks st with
  | _ n ih =>
    match toks, hn, h with
    | [], _, _ => simp [parseLoop, parseLoopChecked]
    | [t], hn, h =>
      have ih0 : ∀ st2, parseLoopChecked [] st2 = some (parseLoop [] st2) :=
        fun st2 => by simp [parseLoop, parseLoopChecked]
      by_cases hw : t.type = TOKEN_WORD
      · have hlt : st.cur.arg_count < MAX_TOKENS := by
          simp only [List.countP_cons, hw, decide_True, if_true, List.countP_nil] at h
          omega
        simp only [parseLoop, parseLoopChecked, hw, hlt, if_true]
      · cases ht : t.type <;> first | exact absurd ht hw | skip
        all_goals simp only [parseLoop, parseLoopChecked, ht]
        all_goals first | rfl | (split <;> rfl)
    | t :: m :: ts2, hn, h =>
      simp only [List.length_cons] at hn
      have hc1 : (m :: ts2).countP (fun t => decide (t.type = TOKEN_WORD)) ≤
          (t :: m :: ts2).countP (fun t => decide (t.type = TOKEN_WORD)) := by
        rw [List.countP_cons (l := m :: ts2)]; omega
      have hc2 : ts2.countP (fun t => decide (t.type = TOKEN_WORD)) ≤
          (m :: ts2).countP (fun t => decide (t.type = TOKEN_WORD)) := by
        rw [List.countP_cons]; omega
      have ih1 : ∀ st2 : ParseState, st2.cur.arg_count ≤ st.cur.arg_count →
          parseLoopChecked (m :: ts2) st2 = some (parseLoop (m :: ts2) st2) :=
        fun st2 hle => ih (ts2.length + 1) (by omega) (m :: ts2) st2 (by omega) rfl
      have ih2 : ∀ st2 : ParseState, st2.cur.arg_count ≤ st.cur.arg_count →
          parseLoopChecked ts2 st2 = some (parseLoop ts2 st2) :=
        fun st2 hle => ih ts2.length (by omega) ts2 st2 (by omega) rfl
      have hz : emptyCommand.arg_count ≤ st.cur.arg_count := by
        simp [t_command.arg_count, emptyCommand]
      by_cases hw : t.type = TOKEN_WORD
      · have hcw : (t :: m :: ts2).countP (fun t => decide (t.type = TOKEN_WORD)) =
            (m :: ts2).countP (fun t => decide (t.type = TOKEN_WORD)) + 1 := by
          rw [List.countP_cons (l := m :: ts2)]; simp [hw]
        have hlt : st.cur.arg_count < MAX_TOKENS := by omega
        simp only [parseLoop, parseLoopChecked, hw, hlt, if_true]
        exact ih (ts2.length + 1) (by omega) (m :: ts2) _
          (by simp only [addWord_arg_count]; omega) rfl
      · cases ht : t.type <;> first | exact absurd ht hw | skip
        all_goals simp only [parseLoop, parseLoopChecked, ht]
        all_goals
          first
          | rfl
          | exact ih1 _ (le_refl _)
          | exact ih1 _ hz
          | (split
             · first | exact ih2 _ (le_refl _) | exact ih1 _ hz
             · first | exact ih2 _ (le_refl _) | exact ih1 _ hz | exact ih1 _ (le_refl _))

/-- On a tokenized line the checked `parse_input` is defined: no store leaves `args`. -/
theorem parse_input_checked_tokenize (input : List Char) (con : Console) :
    parse_input_checked (tokenize input) con = some (parse_input (tokenize input) con) := by
  have hwords : (tokenize input).countP (fun t => decide (t.type = TOKEN_WORD)) ≤
      MAX_TOKENS - 1 := by
    refine le_trans ?_ (tokenize_countP_not_eof input)
    apply List.countP_mono_left
    intro t _ ht
    simp only [decide_eq_true_eq] at ht ⊢
    rw [ht]; decide
  have hloop := parseLoopChecked_of_words (tokenize input)
    { done := [], cur := emptyCommand, con := con }
    (by simp only [t_command.arg_count, emptyCommand, List.length_nil, MAX_TOKENS] at hwords ⊢
        omega)
  have hslots := (parse_input_tokenize_slots input con).1
  have hb : terminatorsInBounds (parse_input (tokenize input) con).1.commands = true := by
    simp only [terminatorsInBounds, List.all_eq_true, decide_eq_true_eq]
    intro c hc
    have := le_sum_of_mem _ _ (List.mem_map_of_mem t_command.arg_count hc)
    simp only [slotsUsed, MAX_TOKENS] at hslots ⊢
    omega
  simp only [parse_input_checked, hloop]
  simp only [parse_input] at hb
  simp only [hb, if_true, parse_input]

/-- C14, as the code behaves: take a token sequence in which every redirection operator is
immediately followed by a Word, with at most 127 separators, and on which `parse_input`
stays within the array `args` of every command (all of which holds for every tokenized
line). Then the argument list of the stage at index `k` is non-empty if and only if the
tokens of that stage contain a Word that does not immediately follow a redirection
operator; a Word after a redirection operator is a filename or delimiter, not an argument.
The arguments are exactly those Words, in order. -/
theorem parse_input_args_nonempty_iff (toks : List Token) (con : Console)
    (hr : redirectsHaveWords toks = true)
    (hc : 1 + toks.countP (fun t => isSeparator t.type) ≤ MAX_TOKENS)
    (r : t_parsed_input × Console) (hres : parse_input_checked toks con = some r)
    (k : Nat) (c : t_command) (seg : List Token)
    (hk : r.1.commands[k]? = some c)
    (hseg : (segments toks)[k]? = some seg) :
    (c.args ≠ [] ↔ hasArgumentWord seg) ∧ c.args = plainWords false seg := by
  obtain ⟨hreq, -⟩ := parse_input_checked_some toks con r hres
  rw [hreq] at hk
  have hst := parse_input_stage_at toks con hr hc k c seg hk hseg
  have h1 : c.args = plainWords false seg := by
    simpa [t_command.stage, stageOf] using congrArg Stage.arguments hst
  refine ⟨?_, h1⟩
  rw [h1, plainWords_ne_nil_iff, hasArgumentWord]
  simp

/-- Witness for the amended C14: the only stage of `< f` has a Word but no argument. -/
theorem parse_input_args_nonempty_iff_witness :
    parse_input_checked (tokenize "< f".toList) ⟨[], [], []⟩ =
      some (parse_input (tokenize "< f".toList) ⟨[], [], []⟩) ∧
    (parse_input (tokenize "< f".toList) ⟨[], [], []⟩).1.commands[0]? =
      some { emptyCommand with input_file := some "f".toList } ∧
    ((([] : List (List Char)) ≠ [] ↔
      hasArgumentWord [⟨TOKEN_REDIRECT_IN, "<".toList⟩, ⟨TOKEN_WORD, "f".toList⟩]) ∧
     ([] : List (List Char)) =
      plainWords false [⟨TOKEN_REDIRECT_IN, "<".toList⟩, ⟨TOKEN_WORD, "f".toList⟩]) := by
  have hres := parse_input_checked_tokenize "< f".toList ⟨[], [], []⟩
  have hk : (parse_input (tokenize "< f".toList) ⟨[], [], []⟩).1.commands[0]? =
      some { emptyCommand with input_file := some "f".toList } := by
    rw [tokenize_in_f]; decide
  exact ⟨hres, hk, parse_input_args_nonempty_iff (tokenize "< f".toList) ⟨[], [], []⟩
    (by rw [tokenize_in_f]; decide) (tokenize_separators_fit _) _ hres 0 _ _ hk
    (by rw [tokenize_in_f]; decide)⟩

/-- C15, as the code behaves: take a token sequence in which every redirection operator is
immediately followed by a Word, with at most 127 separators, and on which `parse_input`
stays within the array `args` of every command (all of which holds for every tokenized
line). Then the background flag of the stage at index `k` is set if and only if a
Background token occurs among the tokens of that stage; the Background token does not end
the stage: the arguments are all the Words of the segment that do not follow a redirection
operator, those after the `&` included. -/
theorem parse_input_background_iff (toks : List Token) (con : Console)
    (hr : redirectsHaveWords toks = true)
    (hc : 1 + toks.countP (fun t => isSeparator t.type) ≤ MAX_TOKENS)
    (r : t_parsed_input × Console) (hres : parse_input_checked toks con = some r)
    (k : Nat) (c : t_command) (seg : List Token)
    (hk : r.1.commands[k]? = some c)
    (hseg : (segments toks)[k]? = some seg) :
    (c.run_in_background = true ↔ ∃ t ∈ seg, t.type = TOKEN_BACKGROUND) ∧
    c.args = plainWords false seg := by
  obtain ⟨hreq, -⟩ := parse_input_checked_some toks con r hres
  rw [hreq] at hk
  have hst := parse_input_stage_at toks con hr hc k c seg hk hseg
  have h1 : c.args = plainWords false seg := by
    simpa [t_command.stage, stageOf] using congrArg Stage.arguments hst
  have h2 : c.run_in_background = seg.any (fun t => t.type == TOKEN_BACKGROUND) := by
    simpa [t_command.stage, stageOf] using congrArg Stage.background hst
  refine ⟨?_, h1⟩
  rw [h2, List.any_eq_true]
  simp

/-- Witness for the amended C15: the line `a & b` is one stage with the background flag
set and both Words as arguments. -/
theorem parse_input_background_iff_witness :
    parse_input_checked (tokenize "a & b".toList) ⟨[], [], []⟩ =
      some (parse_input (tokenize "a & b".toList) ⟨[], [], []⟩) ∧
    (parse_input (tokenize "a & b".toList) ⟨[], [], []⟩).1.commands[0]? =
      some { cmd := some "a".toList, args := ["a".toList, "b".toList], input_file := none,
             heredoc := none, output_file := none, append_output := false,
             run_in_background := true } ∧
    ((true = true ↔
      ∃ t ∈ [(⟨TOKEN_WORD, "a".toList⟩ : Token), ⟨TOKEN_BACKGROUND, "&".toList⟩,
        ⟨TOKEN_WORD, "b".toList⟩], t.type = TOKEN_BACKGROUND) ∧
     ["a".toList, "b".toList] =
      plainWords false [⟨TOKEN_WORD, "a".toList⟩, ⟨TOKEN_BACKGROUND, "&".toList⟩,
        ⟨TOKEN_WORD, "b".toList⟩]) := by
  have hres := parse_input_checked_tokenize "a & b".toList ⟨[], [], []⟩
  have hk : (parse_input (tokenize "a & b".toList) ⟨[], [], []⟩).1.commands[0]? =
      some { cmd := some "a".toList, args := ["a".toList, "b".toList], input_file := none,
             heredoc := none, output_file := none, append_output := false,
             run_in_background := true } := by
    rw [tokenize_a_background_b]; decide
  exact ⟨hres, hk, parse_input_background_iff (tokenize "a & b".toList) ⟨[], [], []⟩
    (by rw [tokenize_a_background_b]; decide) (tokenize_separators_fit _) _ hres 0 _ _ hk
    (by rw [tokenize_a_background_b]; decide)⟩

end Minishell
